import Mathlib

/-!
Shallow embedding of `thoth/app/dfg/dfg.py` (class `DFG` and class `Tainting`):
the data-flow-graph builder and the taint-propagation engine.

Python objects are modelled as Lean structures.  Mutable Python block objects
are identified by their position (index) in the owning list, so object
identity becomes index equality (`NodeRef`).  Python float coefficients are
modelled as exact unreduced fractions (`Coeff`), interpreted in `ℚ` by
`Coeff.toRat`; the propagation constant 0.7 is the rational 7/10.
-/

/-- Modelled from the spec: `thoth.app.disassembler.function.Function` is not
under `src/`.  Per the spec a function carries an integer `id`, a `name`, an
`is_import` flag and argument names retrievable by a query
`arguments_list(explicit, implicit, ret)` selecting explicit arguments,
implicit arguments and return-value slots. -/
structure Function where
  id : Nat
  name : String
  is_import : Bool
  explicit_args : List String
  implicit_args : List String
  ret_args : List String
deriving DecidableEq

/-- Modelled from the spec: the selection query over a function's names. -/
def Function.argumentsList (f : Function) (sel_explicit sel_implicit sel_ret : Bool) : List String :=
  (if sel_explicit then f.explicit_args else []) ++
  (if sel_implicit then f.implicit_args else []) ++
  (if sel_ret then f.ret_args else [])

/-- Modelled from the spec: the zero-argument call `f.arguments_list()` used
when collecting every function's argument names (dfg.py line 60); the spec
calls this "the full set of argument names", modelled as explicit and
implicit arguments (return-value slots are not argument names). -/
def Function.argumentsListDefault (f : Function) : List String :=
  Function.argumentsList f true true false

/-- A scalar payload of an operand: a referenced variable name or an integer
literal (Python stores either in the untyped `Operand.value`). -/
inductive Scalar where
  | str (s : String)
  | int (n : Int)
deriving DecidableEq

/-- An operand payload is a single scalar or a list of scalars (the Python
code dispatches on `isinstance(value, list)`). -/
inductive OpPayload where
  | single (v : Scalar)
  | multi (vs : List Scalar)
deriving DecidableEq

/-- Modelled from the spec: `OperandType` of
`thoth.app.decompiler.variable` (not under `src/`), tag `VARIABLE` or
`INTEGER`. -/
inductive OperandType where
  | VARIABLE
  | INTEGER
deriving DecidableEq

/-- Modelled from the spec: an `Operand` has a type tag and a payload. -/
structure Operand where
  type : OperandType
  value : OpPayload
deriving DecidableEq

/-- An element of a direct expression: an `Operand` or anything else (the
builder keeps exactly the `isinstance(v, Operand)` elements). -/
inductive ValueElement where
  | op (o : Operand)
  | other
deriving DecidableEq

/-- Modelled from the spec: a variable's defining value is either a direct
expression (an ordered collection of operands and ignored elements) or a
function-call assignment carrying the callee and a call number. -/
inductive VariableValue where
  | direct (operation : List ValueElement)
  | call (function : Function) (call_number : Nat)
deriving DecidableEq

/-- Modelled from the spec: `thoth.app.decompiler.variable.Variable` is not
under `src/`: a name, a nullable owning function, two role flags and an
optional defining value. -/
structure Variable where
  name : String
  function : Option Function
  is_function_argument : Bool
  is_function_return_value : Bool
  value : Option VariableValue
deriving DecidableEq

/-- An exact unreduced fraction standing for a Python float tainting
coefficient. -/
structure Coeff where
  num : Nat
  den : Nat
deriving DecidableEq

/-- Interpretation of a coefficient as a rational number. -/
def Coeff.toRat (c : Coeff) : ℚ := (c.num : ℚ) / (c.den : ℚ)

/-- The coefficient 0. -/
def Coeff.zero : Coeff := ⟨0, 1⟩

/-- The coefficient 1 (dfg.py line 82 assigns the integer 1). -/
def Coeff.one : Coeff := ⟨1, 1⟩

/-- Multiplication by `Tainting.PROPAGATION_COEFFICIENT = 0.7`
(dfg.py lines 20 and 70-73). -/
def Coeff.propagate (c : Coeff) : Coeff := ⟨7 * c.num, 10 * c.den⟩

/-- A reference to a DFG block object: blocks are identified by their index
in `variables_blocks` or in `constants_blocks`, which models Python object
identity. -/
inductive NodeRef where
  | var (i : Nat)
  | const (i : Nat)
deriving DecidableEq

/-- Whether a reference points into `variables_blocks`. -/
def NodeRef.isVar : NodeRef → Bool
  | NodeRef.var _ => true
  | NodeRef.const _ => false

/-- Modelled from the spec: `DFGVariableBlock` of `thoth.app.dfg.objects`
(not under `src/`): name, owning function, role flags, display name, the
mutable relational lists and the mutable tainting coefficient (default 0). -/
structure DFGVariableBlock where
  name : String
  function : Function
  is_function_argument : Bool
  is_function_return_value : Bool
  graph_representation_name : String
  parents_blocks : List NodeRef
  children_blocks : List NodeRef
  tainting_coefficient : Coeff
deriving DecidableEq

/-- Modelled from the spec: `DFGConstantBlock` of `thoth.app.dfg.objects`
(not under `src/`): a literal value, a sequential id, the consuming variable
and its function.  The `tainting_coefficient` field models the Python
attribute that tainting would create dynamically; it starts at 0. -/
structure DFGConstantBlock where
  value : Scalar
  id : Nat
  «variable» : Variable
  function : Option Function
  tainting_coefficient : Coeff
deriving DecidableEq

/-- Modelled from the spec: `DFGFunctionCallBlock` of
`thoth.app.dfg.objects` (not under `src/`): callee name, explicit-argument
names, return-value names, caller function and call number. -/
structure DFGFunctionCallBlock where
  value : String
  arguments : List String
  return_values : List String
  function : Option Function
  call_number : Nat
deriving DecidableEq

/-- Modelled from the spec: `DFGEdge` of `thoth.app.dfg.objects` (not under
`src/`): a directed edge with a function scope. -/
structure DFGEdge where
  source : NodeRef
  destination : NodeRef
  function : Option Function
deriving DecidableEq

/-- The state of a `DFG` object: the input variables, the precomputed
argument-name list (dfg.py lines 58-60) and the block and edge lists. -/
structure DFG where
  «variables» : List Variable
  all_functions_arguments : List String
  variables_blocks : List DFGVariableBlock
  constants_blocks : List DFGConstantBlock
  functions_calls_blocks : List DFGFunctionCallBlock
  edges : List DFGEdge
deriving DecidableEq

/-- List update at an index, identity when out of range (models in-place
mutation of the Python object stored at that position). -/
def listModify {α : Type} : List α → Nat → (α → α) → List α
  | [], _, _ => []
  | x :: xs, 0, f => f x :: xs
  | x :: xs, n + 1, f => x :: listModify xs n f

/-- `DFG.__init__` (dfg.py lines 47-63): record the variables, start with
empty block and edge lists, and collect `all_functions_arguments` as the
concatenation of `f.arguments_list()` over the (non-null) functions of all
variables, import functions included. -/
def DFG.init (vs : List Variable) : DFG :=
  { «variables» := vs
    all_functions_arguments :=
      ((vs.filterMap (fun v => v.function)).map
        (fun f => Function.argumentsListDefault f)).flatten
    variables_blocks := []
    constants_blocks := []
    functions_calls_blocks := []
    edges := [] }

/-- `DFG._get_variable_name` (dfg.py lines 109-115). -/
def DFG.getVariableName (d : DFG) (b : DFGVariableBlock) : String :=
  if b.name ∈ d.all_functions_arguments then
    "f" ++ toString b.function.id ++ "_" ++ b.name
  else b.name

/-- One iteration of the loop of `DFG._create_blocks`
(dfg.py lines 121-136). -/
def DFG.createBlocksStep (d : DFG) (v : Variable) : DFG :=
  match v.function with
  | none => d
  | some f =>
    if f.is_import then d
    else
      let nb : DFGVariableBlock :=
        { name := v.name
          function := f
          is_function_argument := v.is_function_argument
          is_function_return_value := v.is_function_return_value
          graph_representation_name := ""
          parents_blocks := []
          children_blocks := []
          tainting_coefficient := Coeff.zero }
      let nb := { nb with graph_representation_name := d.getVariableName nb }
      { d with variables_blocks := d.variables_blocks ++ [nb] }

/-- `DFG._create_blocks` (dfg.py lines 117-136). -/
def DFG.createBlocks (d : DFG) : DFG :=
  d.«variables».foldl DFG.createBlocksStep d

/-- One iteration of the loop of `DFG._create_functions_calls`
(dfg.py lines 142-166). -/
def DFG.createFunctionsCallsStep (d : DFG) (v : Variable) : DFG :=
  match v.value with
  | some (VariableValue.call f call_number) =>
      let nb : DFGFunctionCallBlock :=
        { value := f.name
          arguments := Function.argumentsList f true false false
          return_values := Function.argumentsList f false false true
          function := v.function
          call_number := call_number }
      { d with functions_calls_blocks := d.functions_calls_blocks ++ [nb] }
  | _ => d

/-- `DFG._create_functions_calls` (dfg.py lines 138-166). -/
def DFG.createFunctionsCalls (d : DFG) : DFG :=
  d.«variables».foldl DFG.createFunctionsCallsStep d

/-- Whether block `b` matches variable `v` as an edge destination
(dfg.py line 183: `variable.function == b.function and variable.name ==
b.name`; a null `variable.function` never equals a block's function). -/
def destMatches (v : Variable) (b : DFGVariableBlock) : Bool :=
  decide (v.function = some b.function) && decide (v.name = b.name)

/-- The index of the destination block of `variable`: the Python code builds
the list of all matching blocks and takes element 0, raising `IndexError`
when empty (dfg.py lines 180-184). -/
def DFG.destIndex? (d : DFG) (v : Variable) : Option Nat :=
  ((List.range d.variables_blocks.length).filter (fun i =>
    match d.variables_blocks.get? i with
    | some b => destMatches v b
    | none => false)).head?

/-- The source-block indices collected for the variable-typed operands of
`variable` (dfg.py lines 192-205): a list payload matches every block of the
same function whose name occurs in the list; a scalar payload matches every
block of the same function whose name equals the destination variable's own
name. -/
def DFG.sourceIndexes (d : DFG) (v : Variable) (ops : List Operand) : List Nat :=
  ops.foldl (fun acc p =>
    match p.value with
    | OpPayload.multi vs =>
        acc ++ (List.range d.variables_blocks.length).filter (fun i =>
          match d.variables_blocks.get? i with
          | some b => decide (v.function = some b.function) && decide (Scalar.str b.name ∈ vs)
          | none => false)
    | OpPayload.single _ =>
        acc ++ (List.range d.variables_blocks.length).filter (fun i =>
          match d.variables_blocks.get? i with
          | some b => decide (v.function = some b.function) && decide (b.name = v.name)
          | none => false)) []

/-- One iteration of the loop of dfg.py lines 207-210: append the
destination to the source's children, the source to the destination's
parents, and emit the edge. -/
def DFG.addVariableEdge (d : DFG) (si di : Nat) (fn : Option Function) : DFG :=
  let vb1 := listModify d.variables_blocks si (fun b =>
    { b with children_blocks := b.children_blocks ++ [NodeRef.var di] })
  let vb2 := listModify vb1 di (fun b =>
    { b with parents_blocks := b.parents_blocks ++ [NodeRef.var si] })
  { d with variables_blocks := vb2
           edges := d.edges ++
             [{ source := NodeRef.var si, destination := NodeRef.var di, function := fn }] }

/-- Allocate a constant block (id = current count) and its edge
(dfg.py lines 215-229). -/
def DFG.pushConstant (d : DFG) (x : Scalar) (v : Variable) (di : Nat) : DFG :=
  let nb : DFGConstantBlock :=
    { value := x
      id := d.constants_blocks.length
      «variable» := v
      function := v.function
      tainting_coefficient := Coeff.zero }
  { d with constants_blocks := d.constants_blocks ++ [nb]
           edges := d.edges ++
             [{ source := NodeRef.const nb.id, destination := NodeRef.var di,
                function := v.function }] }

/-- One iteration of the loop of dfg.py lines 213-229; a list payload uses
its first element (`parent_constant.value[0]`), raising `IndexError` on an
empty list. -/
def DFG.addConstantEdge (d : DFG) (v : Variable) (di : Nat) (p : Operand) :
    Except String DFG :=
  match p.value with
  | OpPayload.multi [] => Except.error "IndexError"
  | OpPayload.multi (x :: _) => Except.ok (d.pushConstant x v di)
  | OpPayload.single x => Except.ok (d.pushConstant x v di)

/-- The operands of a direct expression (dfg.py line 187). -/
def parentsOperands (elems : List ValueElement) : List Operand :=
  elems.filterMap (fun e =>
    match e with
    | ValueElement.op o => some o
    | ValueElement.other => none)

/-- One iteration of the loop of `DFG._create_edges`
(dfg.py lines 172-229). -/
def DFG.createEdgesStep (d : DFG) (v : Variable) : Except String DFG :=
  match v.value with
  | none => Except.ok d
  | some (VariableValue.call _ _) => Except.ok d
  | some (VariableValue.direct elems) =>
    match d.destIndex? v with
    | none => Except.error "IndexError"
    | some di =>
      let ops := parentsOperands elems
      let parents_variables := ops.filter (fun o => decide (o.type = OperandType.VARIABLE))
      let parents_constants := ops.filter (fun o => decide (o.type = OperandType.INTEGER))
      let src := d.sourceIndexes v parents_variables
      let d1 := src.foldl (fun d2 si => d2.addVariableEdge si di v.function) d
      parents_constants.foldlM (fun d2 p => d2.addConstantEdge v di p) d1

/-- `DFG._create_edges` (dfg.py lines 168-229). -/
def DFG.createEdges (d : DFG) : Except String DFG :=
  d.«variables».foldlM DFG.createEdgesStep d

/-- `DFG._create_dfg` (dfg.py lines 231-237). -/
def createDfg (vs : List Variable) : Except String DFG :=
  ((DFG.init vs).createBlocks.createFunctionsCalls).createEdges

/-- The children list of the block a reference points at.  Constant blocks
have no children attribute; the reference behaviour never reads one (see the
invariant that relational lists only hold variable-block references). -/
def childrenOf (d : DFG) (r : NodeRef) : List NodeRef :=
  match r with
  | NodeRef.var i =>
    match d.variables_blocks.get? i with
    | some b => b.children_blocks
    | none => []
  | NodeRef.const _ => []

/-- The tainting coefficient of the block a reference points at. -/
def coeffOf (d : DFG) (r : NodeRef) : Coeff :=
  match r with
  | NodeRef.var i =>
    match d.variables_blocks.get? i with
    | some b => b.tainting_coefficient
    | none => Coeff.zero
  | NodeRef.const i =>
    match d.constants_blocks.get? i with
    | some b => b.tainting_coefficient
    | none => Coeff.zero

/-- Assign the tainting coefficient of the block a reference points at. -/
def DFG.setCoeff (d : DFG) (r : NodeRef) (q : Coeff) : DFG :=
  match r with
  | NodeRef.var i =>
    { d with variables_blocks :=
        listModify d.variables_blocks i (fun b => { b with tainting_coefficient := q }) }
  | NodeRef.const i =>
    { d with constants_blocks :=
        listModify d.constants_blocks i (fun b => { b with tainting_coefficient := q }) }

/-- `DFG.taint_children_blocks` (dfg.py lines 65-73): set each child's
coefficient to `0.7 * parent.tainting_coefficient`, reading the parent's
current coefficient at each iteration. -/
def DFG.taintChildrenBlocks (d : DFG) (parent : NodeRef) : DFG :=
  (childrenOf d parent).foldl
    (fun d2 c => d2.setCoeff c (Coeff.propagate (coeffOf d2 parent))) d

/-- The state of the loop of `DFG._taint_variable` (dfg.py lines 79-92):
the mutated graph, the `tainted_blocks` list and the `blocks_to_taint`
queue. -/
structure TaintState where
  dfg : DFG
  tainted : List NodeRef
  queue : List NodeRef
deriving DecidableEq

/-- One iteration of the while-loop of `DFG._taint_variable`
(dfg.py lines 86-92): taint the children of the queue front, append the
front to `tainted_blocks`, enqueue each child not in `tainted_blocks`, and
pop the front. -/
def taintStep (s : TaintState) : TaintState :=
  match s.queue with
  | [] => s
  | b :: rest =>
    let d := s.dfg.taintChildrenBlocks b
    let t := s.tainted ++ [b]
    let q := rest ++ (childrenOf d b).filter (fun c => decide (c ∉ t))
    { dfg := d, tainted := t, queue := q }

/-- The while-loop of `DFG._taint_variable`, run for at most `fuel`
iterations (the loop exits as soon as the queue is empty). -/
def taintRun : Nat → TaintState → TaintState
  | 0, s => s
  | n + 1, s => if s.queue = [] then s else taintRun n (taintStep s)

/-- The state right before the while-loop of `DFG._taint_variable`
(dfg.py lines 79-85): the source coefficient is set to 1 and the queue holds
the source. -/
def taintInit (d : DFG) (src : Nat) : TaintState :=
  { dfg := d.setCoeff (NodeRef.var src) Coeff.one
    tainted := []
    queue := [NodeRef.var src] }

/-- `DFG._taint_variable` (dfg.py lines 75-92), with an explicit iteration
budget. -/
def taintVariable (fuel : Nat) (d : DFG) (src : Nat) : TaintState :=
  taintRun fuel (taintInit d src)

/-- `DFG._taint_functions_arguments` (dfg.py lines 94-100). -/
def DFG.taintFunctionsArguments (fuel : Nat) (d : DFG) : DFG :=
  (List.range d.variables_blocks.length).foldl (fun d2 i =>
    match d2.variables_blocks.get? i with
    | some b => if b.is_function_argument then (taintVariable fuel d2 i).dfg else d2
    | none => d2) d

/-- `DFG._clean_tainting` (dfg.py lines 102-107). -/
def DFG.cleanTainting (d : DFG) : DFG :=
  { d with variables_blocks :=
      d.variables_blocks.map (fun b => { b with tainting_coefficient := Coeff.zero }) }

/-! ### Basic lemmas about `listModify` -/

/-- `listModify` preserves the length. -/
theorem lm_listModify_length {α : Type} (l : List α) (i : Nat) (f : α → α) :
    (listModify l i f).length = l.length := by
  induction l generalizing i with
  | nil => rfl
  | cons x xs ih =>
    cases i with
    | zero => rfl
    | succ i => simp [listModify, ih]

/-- Entry-wise description of `listModify`. -/
theorem lm_listModify_get? {α : Type} (l : List α) (i j : Nat) (f : α → α) :
    (listModify l i f)[j]? =
      if j = i then Option.map f l[j]? else l[j]? := by
  induction l generalizing i j with
  | nil => simp [listModify]
  | cons x xs ih =>
    cases i with
    | zero =>
      cases j with
      | zero => simp [listModify]
      | succ j => simp [listModify]
    | succ i =>
      cases j with
      | zero => simp [listModify]
      | succ j => simpa [listModify] using ih i j

/-- Mapping a function that is blind to the modification commutes away the
modification. -/
theorem lm_listModify_map {α β : Type} (l : List α) (i : Nat) (g : α → α)
    (f : α → β) (h : ∀ a, f (g a) = f a) :
    (listModify l i g).map f = l.map f := by
  induction l generalizing i with
  | nil => rfl
  | cons x xs ih =>
    cases i with
    | zero => simp [listModify, h]
    | succ i => simp [listModify, ih]

/-- Membership in a modified list comes from the original list. -/
theorem lm_mem_listModify {α : Type} (l : List α) (i : Nat) (g : α → α)
    (b : α) (hb : b ∈ listModify l i g) : (∃ a ∈ l, b = g a) ∨ b ∈ l := by
  induction l generalizing i with
  | nil => simp [listModify] at hb
  | cons x xs ih =>
    cases i with
    | zero =>
      rcases (List.mem_cons.mp hb) with h | h
      · exact Or.inl ⟨x, List.mem_cons_self x xs, h⟩
      · exact Or.inr (List.mem_cons_of_mem x h)
    | succ i =>
      rcases (List.mem_cons.mp hb) with h | h
      · exact Or.inr (h ▸ List.mem_cons_self x xs)
      · rcases ih i h with ⟨a, ha, hba⟩ | h
        · exact Or.inl ⟨a, List.mem_cons_of_mem x ha, hba⟩
        · exact Or.inr (List.mem_cons_of_mem x h)

/-! ### Structural preservation by the taint engine -/

/-- A variable block with its coefficient forgotten. -/
def eraseCoeff (b : DFGVariableBlock) : DFGVariableBlock :=
  { b with tainting_coefficient := Coeff.zero }

/-- Two DFG states with the same block structure (only variable-block
coefficients may differ, and the constant list has the same length). -/
def sameStructure (d d' : DFG) : Prop :=
  d'.variables_blocks.map eraseCoeff = d.variables_blocks.map eraseCoeff ∧
  d'.constants_blocks.length = d.constants_blocks.length

theorem lm_sameStructure_refl (d : DFG) : sameStructure d d := ⟨rfl, rfl⟩

theorem lm_sameStructure_trans {d1 d2 d3 : DFG}
    (h1 : sameStructure d1 d2) (h2 : sameStructure d2 d3) : sameStructure d1 d3 :=
  ⟨h2.1.trans h1.1, h2.2.trans h1.2⟩

theorem lm_sameStructure_lenV {d d' : DFG} (h : sameStructure d d') :
    d'.variables_blocks.length = d.variables_blocks.length := by
  have := congrArg List.length h.1
  simpa using this

/-- `setCoeff` only changes a coefficient. -/
theorem lm_setCoeff_structure (d : DFG) (r : NodeRef) (q : Coeff) :
    sameStructure d (d.setCoeff r q) := by
  cases r with
  | var i =>
    refine ⟨?_, rfl⟩
    exact lm_listModify_map _ _ _ _ (fun a => rfl)
  | const i =>
    exact ⟨rfl, lm_listModify_length _ _ _⟩

/-- The children relation only depends on the structure. -/
theorem lm_childrenOf_structure {d d' : DFG} (h : sameStructure d d') (r : NodeRef) :
    childrenOf d' r = childrenOf d r := by
  cases r with
  | var i =>
    have hmap := h.1
    have h1 : (d'.variables_blocks.map eraseCoeff).get? i
        = (d.variables_blocks.map eraseCoeff).get? i := by rw [hmap]
    rw [List.get?_map, List.get?_map] at h1
    simp only [childrenOf]
    cases hv' : d'.variables_blocks.get? i with
    | none =>
      rw [hv'] at h1
      cases hv : d.variables_blocks.get? i with
      | none => rfl
      | some b => rw [hv] at h1; simp at h1
    | some b' =>
      rw [hv'] at h1
      cases hv : d.variables_blocks.get? i with
      | none => rw [hv] at h1; simp at h1
      | some b =>
        rw [hv] at h1
        simp only [Option.map_some'] at h1
        have : b'.children_blocks = b.children_blocks := by
          have := congrArg DFGVariableBlock.children_blocks (Option.some.inj h1)
          simpa [eraseCoeff] using this
        simp [this]
  | const i => rfl

/-- Validity of a reference only depends on the structure. -/
def validRef (d : DFG) (r : NodeRef) : Prop :=
  match r with
  | NodeRef.var i => i < d.variables_blocks.length
  | NodeRef.const i => i < d.constants_blocks.length

instance (d : DFG) (r : NodeRef) : Decidable (validRef d r) :=
  match r with
  | NodeRef.var i => inferInstanceAs (Decidable (i < _))
  | NodeRef.const i => inferInstanceAs (Decidable (i < _))

theorem lm_validRef_structure {d d' : DFG} (h : sameStructure d d') (r : NodeRef) :
    validRef d r ↔ validRef d' r := by
  cases r with
  | var i => simp [validRef, lm_sameStructure_lenV h]
  | const i => simp [validRef, h.2]

/-- Reading a coefficient another reference was not assigned to. -/
theorem lm_coeffOf_setCoeff_ne (d : DFG) (r r' : NodeRef) (q : Coeff)
    (h : r' ≠ r) : coeffOf (d.setCoeff r q) r' = coeffOf d r' := by
  cases r with
  | var i =>
    cases r' with
    | var j =>
      have hij : j ≠ i := fun hji => h (by rw [hji])
      simp [coeffOf, DFG.setCoeff, lm_listModify_get?, hij]
    | const j => simp [coeffOf, DFG.setCoeff]
  | const i =>
    cases r' with
    | var j => simp [coeffOf, DFG.setCoeff]
    | const j =>
      have hij : j ≠ i := fun hji => h (by rw [hji])
      simp [coeffOf, DFG.setCoeff, lm_listModify_get?, hij]

/-- Reading a coefficient just assigned (to a block that exists). -/
theorem lm_coeffOf_setCoeff_self (d : DFG) (r : NodeRef) (q : Coeff)
    (h : validRef d r) : coeffOf (d.setCoeff r q) r = q := by
  cases r with
  | var i =>
    have hi : i < d.variables_blocks.length := h
    have hg : d.variables_blocks[i]? = some d.variables_blocks[i] :=
      List.getElem?_eq_getElem hi
    simp [coeffOf, DFG.setCoeff, lm_listModify_get?, hg]
  | const i =>
    have hi : i < d.constants_blocks.length := h
    have hg : d.constants_blocks[i]? = some d.constants_blocks[i] :=
      List.getElem?_eq_getElem hi
    simp [coeffOf, DFG.setCoeff, lm_listModify_get?, hg]

/-- The inner fold of `taint_children_blocks`: assign
`0.7 * (current coefficient of p)` to every element of `l` in turn. -/
def taintFoldFn (p : NodeRef) (l : List NodeRef) (d : DFG) : DFG :=
  l.foldl (fun d2 c => d2.setCoeff c (Coeff.propagate (coeffOf d2 p))) d

theorem lm_taintChildrenBlocks_eq (d : DFG) (r : NodeRef) :
    d.taintChildrenBlocks r = taintFoldFn r (childrenOf d r) d := rfl

theorem lm_taintFoldFn_cons (p x : NodeRef) (xs : List NodeRef) (d : DFG) :
    taintFoldFn p (x :: xs) d =
      taintFoldFn p xs (d.setCoeff x (Coeff.propagate (coeffOf d p))) := rfl

theorem lm_taintFoldFn_structure (p : NodeRef) (l : List NodeRef) (d : DFG) :
    sameStructure d (taintFoldFn p l d) := by
  induction l generalizing d with
  | nil => exact lm_sameStructure_refl d
  | cons x xs ih =>
    exact lm_sameStructure_trans (lm_setCoeff_structure d x _) (ih _)

/-- A reference not assigned to by the fold keeps its coefficient. -/
theorem lm_taintFoldFn_notMem (p : NodeRef) (l : List NodeRef) (d : DFG)
    (r : NodeRef) (hr : r ∉ l) : coeffOf (taintFoldFn p l d) r = coeffOf d r := by
  induction l generalizing d with
  | nil => rfl
  | cons x xs ih =>
    have hrx : r ≠ x := fun h => hr (h ▸ List.mem_cons_self x xs)
    have hrxs : r ∉ xs := fun h => hr (List.mem_cons_of_mem x h)
    calc coeffOf (taintFoldFn p xs (d.setCoeff x _)) r
        = coeffOf (d.setCoeff x _) r := ih _ hrxs
      _ = coeffOf d r := lm_coeffOf_setCoeff_ne d x r _ hrx

/-- When the parent is not among the assigned references, every assigned
reference ends with `0.7 *` the parent's original coefficient, and the
parent's coefficient is unchanged. -/
theorem lm_taintFoldFn_coeff (p : NodeRef) (l : List NodeRef) (d : DFG)
    (hp : p ∉ l) (hv : ∀ c ∈ l, validRef d c) :
    coeffOf (taintFoldFn p l d) p = coeffOf d p ∧
    ∀ c ∈ l, coeffOf (taintFoldFn p l d) c = Coeff.propagate (coeffOf d p) := by
  induction l generalizing d with
  | nil => exact ⟨rfl, by simp⟩
  | cons x xs ih =>
    have hpx : p ≠ x := fun h => hp (h ▸ List.mem_cons_self x xs)
    have hpxs : p ∉ xs := fun h => hp (List.mem_cons_of_mem x h)
    have hxv : validRef d x := hv x (List.mem_cons_self x xs)
    have hv' : ∀ c ∈ xs, validRef (d.setCoeff x (Coeff.propagate (coeffOf d p))) c := by
      intro c hc
      exact (lm_validRef_structure (lm_setCoeff_structure d x _) c).mp (hv c (List.mem_cons_of_mem x hc))
    obtain ⟨ihp, ihc⟩ := ih (d.setCoeff x (Coeff.propagate (coeffOf d p))) hpxs hv'
    have hkeep : coeffOf (d.setCoeff x (Coeff.propagate (coeffOf d p))) p = coeffOf d p :=
      lm_coeffOf_setCoeff_ne d x p _ hpx
    rw [lm_taintFoldFn_cons]
    constructor
    · rw [ihp, hkeep]
    · intro c hc
      rcases List.mem_cons.mp hc with hcx | hcxs
      · subst hcx
        by_cases hcin : c ∈ xs
        · rw [ihc c hcin, hkeep]
        · rw [lm_taintFoldFn_notMem p xs _ c hcin,
            lm_coeffOf_setCoeff_self d c _ hxv]
      · rw [ihc c hcxs, hkeep]

theorem lm_taintChildrenBlocks_structure (d : DFG) (r : NodeRef) :
    sameStructure d (d.taintChildrenBlocks r) :=
  lm_taintFoldFn_structure r (childrenOf d r) d

theorem lm_taintStep_structure (s : TaintState) :
    sameStructure s.dfg (taintStep s).dfg := by
  cases hq : s.queue with
  | nil => simp [taintStep, hq]; exact lm_sameStructure_refl _
  | cons b rest =>
    simp only [taintStep, hq]
    exact lm_taintChildrenBlocks_structure s.dfg b

theorem lm_taintRun_structure (n : Nat) (s : TaintState) :
    sameStructure s.dfg (taintRun n s).dfg := by
  induction n generalizing s with
  | zero => exact lm_sameStructure_refl _
  | succ n ih =>
    by_cases hq : s.queue = []
    · simp [taintRun, hq]; exact lm_sameStructure_refl _
    · simp only [taintRun, hq, if_false]
      exact lm_sameStructure_trans (lm_taintStep_structure s) (ih (taintStep s))

/-! ### Frame property of the taint engine (only coefficients change) -/

/-- Everything except variable-block tainting coefficients is unchanged
between two DFG states. -/
def TaintFrame (d d' : DFG) : Prop :=
  d'.«variables» = d.«variables» ∧
  d'.all_functions_arguments = d.all_functions_arguments ∧
  d'.constants_blocks = d.constants_blocks ∧
  d'.functions_calls_blocks = d.functions_calls_blocks ∧
  d'.edges = d.edges ∧
  d'.variables_blocks.map eraseCoeff = d.variables_blocks.map eraseCoeff

theorem lm_taintFrame_refl (d : DFG) : TaintFrame d d :=
  ⟨rfl, rfl, rfl, rfl, rfl, rfl⟩

theorem lm_taintFrame_trans {d1 d2 d3 : DFG}
    (h1 : TaintFrame d1 d2) (h2 : TaintFrame d2 d3) : TaintFrame d1 d3 :=
  ⟨h2.1.trans h1.1, h2.2.1.trans h1.2.1, h2.2.2.1.trans h1.2.2.1,
   h2.2.2.2.1.trans h1.2.2.2.1, h2.2.2.2.2.1.trans h1.2.2.2.2.1,
   h2.2.2.2.2.2.trans h1.2.2.2.2.2⟩

theorem lm_taintFrame_structure {d d' : DFG} (h : TaintFrame d d') :
    sameStructure d d' :=
  ⟨h.2.2.2.2.2, by rw [h.2.2.1]⟩

/-- Every reference held in a variable block's children list points into
`variables_blocks` (the invariant established by edge construction). -/
def VarChildren (d : DFG) : Prop :=
  ∀ b ∈ d.variables_blocks, ∀ c ∈ b.children_blocks, c.isVar = true

instance (d : DFG) : Decidable (VarChildren d) :=
  inferInstanceAs (Decidable (∀ b ∈ _, ∀ c ∈ _, _))

theorem lm_varChildren_structure {d d' : DFG} (h : sameStructure d d')
    (hv : VarChildren d) : VarChildren d' := by
  intro b' hb' c hc
  have : eraseCoeff b' ∈ d'.variables_blocks.map eraseCoeff :=
    List.mem_map_of_mem eraseCoeff hb'
  rw [h.1] at this
  rcases List.mem_map.mp this with ⟨b, hb, hbe⟩
  have hceq : b.children_blocks = b'.children_blocks := by
    have := congrArg DFGVariableBlock.children_blocks hbe
    simpa [eraseCoeff] using this
  exact hv b hb c (hceq ▸ hc)

/-- Children of any reference are variable references, under
`VarChildren`. -/
theorem lm_childrenOf_isVar {d : DFG} (hv : VarChildren d) (r : NodeRef) :
    ∀ c ∈ childrenOf d r, c.isVar = true := by
  intro c hc
  cases r with
  | var i =>
    simp only [childrenOf] at hc
    cases hg : d.variables_blocks.get? i with
    | none => rw [hg] at hc; simp at hc
    | some b =>
      rw [hg] at hc
      exact hv b (List.get?_mem hg) c hc
  | const i => simp [childrenOf] at hc

theorem lm_setCoeff_frame (d : DFG) (i : Nat) (q : Coeff) :
    TaintFrame d (d.setCoeff (NodeRef.var i) q) := by
  refine ⟨rfl, rfl, rfl, rfl, rfl, ?_⟩
  exact lm_listModify_map _ _ _ _ (fun a => rfl)

theorem lm_taintFoldFn_frame (p : NodeRef) (l : List NodeRef) (d : DFG)
    (hl : ∀ c ∈ l, c.isVar = true) : TaintFrame d (taintFoldFn p l d) := by
  induction l generalizing d with
  | nil => exact lm_taintFrame_refl d
  | cons x xs ih =>
    rw [lm_taintFoldFn_cons]
    have hx : x.isVar = true := hl x (List.mem_cons_self x xs)
    cases x with
    | var i =>
      exact lm_taintFrame_trans (lm_setCoeff_frame d i _)
        (ih _ (fun c hc => hl c (List.mem_cons_of_mem _ hc)))
    | const i => simp [NodeRef.isVar] at hx

theorem lm_taintChildrenBlocks_frame {d : DFG} (hv : VarChildren d) (r : NodeRef) :
    TaintFrame d (d.taintChildrenBlocks r) := by
  rw [lm_taintChildrenBlocks_eq]
  exact lm_taintFoldFn_frame r (childrenOf d r) d (lm_childrenOf_isVar hv r)

theorem lm_taintStep_frame {s : TaintState} (hv : VarChildren s.dfg) :
    TaintFrame s.dfg (taintStep s).dfg := by
  cases hq : s.queue with
  | nil => simp [taintStep, hq]; exact lm_taintFrame_refl _
  | cons b rest =>
    simp only [taintStep, hq]
    exact lm_taintChildrenBlocks_frame hv b

theorem lm_taintRun_frame (n : Nat) (s : TaintState) (hv : VarChildren s.dfg) :
    TaintFrame s.dfg (taintRun n s).dfg := by
  induction n generalizing s with
  | zero => exact lm_taintFrame_refl _
  | succ n ih =>
    by_cases hq : s.queue = []
    · simp [taintRun, hq]; exact lm_taintFrame_refl _
    · simp only [taintRun, hq, if_false]
      have hv' : VarChildren (taintStep s).dfg :=
        lm_varChildren_structure (lm_taintStep_structure s) hv
      exact lm_taintFrame_trans (lm_taintStep_frame hv) (ih (taintStep s) hv')

theorem lm_taintVariable_frame (fuel : Nat) (d : DFG) (src : Nat)
    (hv : VarChildren d) : TaintFrame d (taintVariable fuel d src).dfg := by
  have h0 : TaintFrame d (taintInit d src).dfg := lm_setCoeff_frame d src Coeff.one
  have hv0 : VarChildren (taintInit d src).dfg :=
    lm_varChildren_structure (lm_taintFrame_structure h0) hv
  exact lm_taintFrame_trans h0 (lm_taintRun_frame fuel (taintInit d src) hv0)

theorem lm_taintFunctionsArguments_frame (fuel : Nat) (d : DFG)
    (hv : VarChildren d) : TaintFrame d (d.taintFunctionsArguments fuel) := by
  show TaintFrame d ((List.range d.variables_blocks.length).foldl _ d)
  generalize (List.range d.variables_blocks.length) = l
  induction l generalizing d with
  | nil => exact lm_taintFrame_refl d
  | cons i is ih =>
    have hstep : ∀ d2 : DFG, VarChildren d2 → TaintFrame d2
        (match d2.variables_blocks.get? i with
         | some b => if b.is_function_argument then (taintVariable fuel d2 i).dfg else d2
         | none => d2) := by
      intro d2 hv2
      cases d2.variables_blocks.get? i with
      | none => exact lm_taintFrame_refl d2
      | some b =>
        by_cases hb : b.is_function_argument
        · simp only [hb, if_true]
          exact lm_taintVariable_frame fuel d2 i hv2
        · simp only [hb, if_false]
          exact lm_taintFrame_refl d2
    have h1 := hstep d hv
    have hv1 : VarChildren (match d.variables_blocks.get? i with
        | some b => if b.is_function_argument then (taintVariable fuel d i).dfg else d
        | none => d) :=
      lm_varChildren_structure (lm_taintFrame_structure h1) hv
    exact lm_taintFrame_trans h1 (ih _ hv1)

theorem lm_cleanTainting_frame (d : DFG) : TaintFrame d d.cleanTainting := by
  refine ⟨rfl, rfl, rfl, rfl, rfl, ?_⟩
  show (d.variables_blocks.map _).map eraseCoeff = _
  rw [List.map_map]
  rfl

/-! ### Termination of the taint traversal -/

/-- All block references of a DFG state. -/
def allRefs (d : DFG) : List NodeRef :=
  (List.range d.variables_blocks.length).map NodeRef.var ++
  (List.range d.constants_blocks.length).map NodeRef.const

theorem lm_mem_allRefs (d : DFG) (r : NodeRef) : r ∈ allRefs d ↔ validRef d r := by
  cases r with
  | var i => simp [allRefs, validRef]
  | const i => simp [allRefs, validRef]

theorem lm_allRefs_structure {d d' : DFG} (h : sameStructure d d') :
    allRefs d' = allRefs d := by
  simp [allRefs, lm_sameStructure_lenV h, h.2]

/-- Number of blocks not yet in the `tainted_blocks` list. -/
def untaintedCount (s : TaintState) : Nat :=
  ((allRefs s.dfg).filter (fun r => decide (r ∉ s.tainted))).length

/-- Length of the longest prefix of the queue made of already-tainted
entries (the whole queue length when every entry is tainted). -/
def frontTainted (t : List NodeRef) : List NodeRef → Nat
  | [] => 0
  | x :: xs => if x ∈ t then frontTainted t xs + 1 else 0

theorem lm_frontTainted_congr {t t' : List NodeRef}
    (h : ∀ a, a ∈ t ↔ a ∈ t') (l : List NodeRef) :
    frontTainted t l = frontTainted t' l := by
  induction l with
  | nil => rfl
  | cons x xs ih =>
    by_cases hx : x ∈ t
    · simp [frontTainted, hx, (h x).mp hx, ih]
    · have hx2 : x ∉ t' := fun hm => hx ((h x).mpr hm)
      simp [frontTainted, hx, hx2]

theorem lm_frontTainted_append_ex {t : List NodeRef} (l1 l2 : List NodeRef)
    (hex : ∃ x ∈ l1, x ∉ t) :
    frontTainted t (l1 ++ l2) = frontTainted t l1 := by
  induction l1 with
  | nil => rcases hex with ⟨x, hx, _⟩; simp at hx
  | cons x xs ih =>
    by_cases hx : x ∈ t
    · have hex' : ∃ y ∈ xs, y ∉ t := by
        rcases hex with ⟨y, hy, hyn⟩
        rcases List.mem_cons.mp hy with h | h
        · exact absurd (h ▸ hx) hyn
        · exact ⟨y, h, hyn⟩
      simp [frontTainted, hx, ih hex']
    · simp [frontTainted, hx]

theorem lm_frontTainted_all {t : List NodeRef} (l1 l2 : List NodeRef)
    (hall : ∀ x ∈ l1, x ∈ t) :
    frontTainted t (l1 ++ l2) = l1.length + frontTainted t l2 := by
  induction l1 with
  | nil => simp
  | cons x xs ih =>
    have hx : x ∈ t := hall x (List.mem_cons_self x xs)
    have ih' := ih (fun y hy => hall y (List.mem_cons_of_mem x hy))
    simp [frontTainted, hx, ih']
    omega

theorem lm_frontTainted_zero {t : List NodeRef} (l : List NodeRef)
    (h : ∀ x ∈ l, x ∉ t) : frontTainted t l = 0 := by
  cases l with
  | nil => rfl
  | cons x xs => simp [frontTainted, h x (List.mem_cons_self x xs)]

theorem lm_filter_length_mono {α : Type} (l : List α) (p q : α → Bool)
    (h : ∀ a ∈ l, q a = true → p a = true) :
    (l.filter q).length ≤ (l.filter p).length := by
  induction l with
  | nil => exact Nat.le_refl 0
  | cons x xs ih =>
    have ih' := ih (fun a ha => h a (List.mem_cons_of_mem x ha))
    by_cases hq : q x = true
    · have hp := h x (List.mem_cons_self x xs) hq
      simp [List.filter_cons, hq, hp]
      exact ih'
    · have hq' : q x = false := by revert hq; cases q x <;> simp
      simp only [List.filter_cons, hq']
      by_cases hp : p x = true
      · simp only [hp, if_true]
        exact Nat.le_trans ih' (by simp)
      · have hp' : p x = false := by revert hp; cases p x <;> simp
        simp only [hp', if_false]
        exact ih'

theorem lm_filter_length_lt {α : Type} (l : List α) (p q : α → Bool) (b : α)
    (hb : b ∈ l) (hpb : p b = true) (hqb : q b = false)
    (h : ∀ a ∈ l, q a = true → p a = true) :
    (l.filter q).length < (l.filter p).length := by
  induction l with
  | nil => simp at hb
  | cons x xs ih =>
    rcases List.mem_cons.mp hb with hbx | hbxs
    · subst hbx
      simp only [List.filter_cons, hpb, hqb]
      have := lm_filter_length_mono xs p q (fun a ha => h a (List.mem_cons_of_mem b ha))
      simp
      omega
    · have ih' := ih hbxs (fun a ha => h a (List.mem_cons_of_mem x ha))
      by_cases hq : q x = true
      · have hp := h x (List.mem_cons_self x xs) hq
        simp only [List.filter_cons, hq, hp, if_true, List.length_cons]
        omega
      · have hq' : q x = false := by revert hq; cases q x <;> simp
        simp only [List.filter_cons, hq']
        by_cases hp : p x = true
        · simp [hp]
          omega
        · have hp' : p x = false := by revert hp; cases p x <;> simp
          simpa [hp'] using ih'

/-- Unfolding of one loop iteration on a nonempty queue. -/
theorem lm_taintStep_cons (s : TaintState) (b : NodeRef) (rest : List NodeRef)
    (hq : s.queue = b :: rest) :
    taintStep s =
      { dfg := s.dfg.taintChildrenBlocks b
        tainted := s.tainted ++ [b]
        queue := rest ++ (childrenOf (s.dfg.taintChildrenBlocks b) b).filter
          (fun c => decide (c ∉ s.tainted ++ [b])) } := by
  simp [taintStep, hq]

theorem lm_taintRun_fix (n : Nat) (s : TaintState) (h : s.queue = []) :
    taintRun n s = s := by
  cases n with
  | zero => rfl
  | succ n => simp [taintRun, h]

theorem lm_taintRun_succ (n : Nat) (s : TaintState) (h : ¬ s.queue = []) :
    taintRun (n + 1) s = taintRun n (taintStep s) := by
  simp [taintRun, h]

/-- Every reference a variable block's children list holds points at an
existing block (the well-formedness used for termination). -/
def ClosedDFG (d : DFG) : Prop :=
  ∀ b ∈ d.variables_blocks, ∀ c ∈ b.children_blocks, validRef d c

instance (d : DFG) : Decidable (ClosedDFG d) :=
  inferInstanceAs (Decidable (∀ b ∈ _, ∀ c ∈ _, _))

/-- Every queue entry points at an existing block. -/
def QueueValid (s : TaintState) : Prop :=
  ∀ r ∈ s.queue, validRef s.dfg r

theorem lm_closed_structure {d d' : DFG} (h : sameStructure d d')
    (hc : ClosedDFG d) : ClosedDFG d' := by
  intro b' hb' c hc'
  have hm : eraseCoeff b' ∈ d'.variables_blocks.map eraseCoeff :=
    List.mem_map_of_mem eraseCoeff hb'
  rw [h.1] at hm
  rcases List.mem_map.mp hm with ⟨b, hb, hbe⟩
  have hceq : b.children_blocks = b'.children_blocks := by
    have := congrArg DFGVariableBlock.children_blocks hbe
    simpa [eraseCoeff] using this
  exact (lm_validRef_structure h c).mp (hc b hb c (hceq ▸ hc'))

theorem lm_childrenOf_valid {d : DFG} (hc : ClosedDFG d) (r : NodeRef) :
    ∀ c ∈ childrenOf d r, validRef d c := by
  intro c hcc
  cases r with
  | var i =>
    simp only [childrenOf] at hcc
    cases hg : d.variables_blocks.get? i with
    | none => rw [hg] at hcc; simp at hcc
    | some b =>
      rw [hg] at hcc
      exact hc b (List.get?_mem hg) c hcc
  | const i => simp [childrenOf] at hcc

theorem lm_queueValid_step {s : TaintState} (hq : QueueValid s)
    (hc : ClosedDFG s.dfg) : QueueValid (taintStep s) := by
  cases hcase : s.queue with
  | nil =>
    intro r hr
    simp only [taintStep, hcase] at hr
    simp at hr
  | cons b rest =>
    rw [lm_taintStep_cons s b rest hcase]
    intro r hr
    simp only [List.mem_append] at hr
    have hstruct : sameStructure s.dfg (s.dfg.taintChildrenBlocks b) :=
      lm_taintChildrenBlocks_structure s.dfg b
    rcases hr with hr | hr
    · have : validRef s.dfg r := hq r (hcase ▸ List.mem_cons_of_mem b hr)
      exact (lm_validRef_structure hstruct r).mp this
    · have hmem := List.mem_filter.mp hr
      have hch : r ∈ childrenOf s.dfg b := by
        rw [← lm_childrenOf_structure hstruct b]
        exact hmem.1
      exact (lm_validRef_structure hstruct r).mp (lm_childrenOf_valid hc b r hch)

theorem lm_closed_step {s : TaintState} (hc : ClosedDFG s.dfg) :
    ClosedDFG (taintStep s).dfg :=
  lm_closed_structure (lm_taintStep_structure s) hc

/-- One iteration strictly decreases the lexicographic measure
(number of untainted blocks, length of the tainted queue prefix). -/
theorem lm_measure_decrease (s : TaintState) (b : NodeRef) (rest : List NodeRef)
    (hq : s.queue = b :: rest) (hval : validRef s.dfg b) :
    untaintedCount (taintStep s) < untaintedCount s ∨
    (untaintedCount (taintStep s) = untaintedCount s ∧
     frontTainted (taintStep s).tainted (taintStep s).queue <
       frontTainted s.tainted s.queue) := by
  have hstepeq := lm_taintStep_cons s b rest hq
  have hstruct : sameStructure s.dfg (taintStep s).dfg := lm_taintStep_structure s
  have hall : allRefs (taintStep s).dfg = allRefs s.dfg := lm_allRefs_structure hstruct
  by_cases hb : b ∈ s.tainted
  · right
    have hmem : ∀ a : NodeRef, a ∈ s.tainted ++ [b] ↔ a ∈ s.tainted := by
      intro a
      simp only [List.mem_append, List.mem_singleton]
      constructor
      · rintro (h | h)
        · exact h
        · exact h ▸ hb
      · exact Or.inl
    constructor
    · show (List.filter _ (allRefs (taintStep s).dfg)).length = _
      rw [hall]
      unfold untaintedCount
      congr 1
      apply List.filter_congr
      intro a _
      have := hmem a
      by_cases hat : a ∈ s.tainted
      · simp [hstepeq, hat, this.mpr hat]
      · have : a ∉ s.tainted ++ [b] := fun hm => hat ((hmem a).mp hm)
        simp [hstepeq, hat, this]
    · rw [hstepeq]
      simp only
      have hcongr := @lm_frontTainted_congr (s.tainted ++ [b]) s.tainted hmem
      rw [hcongr, hq]
      have hone : frontTainted s.tainted (b :: rest)
          = frontTainted s.tainted rest + 1 := by
        simp [frontTainted, hb]
      rw [hone]
      by_cases hex : ∃ x ∈ rest, x ∉ s.tainted
      · rw [lm_frontTainted_append_ex rest _ hex]
        exact Nat.lt_succ_self _
      · push_neg at hex
        rw [lm_frontTainted_all rest _ hex]
        have hz : frontTainted s.tainted
            ((childrenOf (s.dfg.taintChildrenBlocks b) b).filter
              (fun c => decide (c ∉ s.tainted ++ [b]))) = 0 := by
          apply lm_frontTainted_zero
          intro x hx
          have := (List.mem_filter.mp hx).2
          intro hxt
          simp only [decide_eq_true_eq] at this
          exact this (List.mem_append_left _ hxt)
        rw [hz]
        have hrall : frontTainted s.tainted rest = rest.length := by
          have := lm_frontTainted_all rest ([] : List NodeRef) hex
          simpa using this
        rw [hrall]
        omega
  · left
    show (List.filter _ (allRefs (taintStep s).dfg)).length < _
    rw [hall]
    unfold untaintedCount
    refine lm_filter_length_lt _ _ _ b ?_ ?_ ?_ ?_
    · exact (lm_mem_allRefs s.dfg b).mpr hval
    · simpa using hb
    · simp [hstepeq]
    · intro a _ hqa
      simp only [hstepeq, decide_eq_true_eq] at hqa
      simp only [decide_eq_true_eq]
      intro hat
      exact hqa (List.mem_append_left _ hat)

/-- The while-loop always reaches an empty queue given enough fuel. -/
theorem lm_taintRun_terminates :
    ∀ (u p : Nat) (s : TaintState),
      untaintedCount s = u → frontTainted s.tainted s.queue = p →
      QueueValid s → ClosedDFG s.dfg →
      ∃ n, (taintRun n s).queue = [] := by
  intro u
  induction u using Nat.strong_induction_on with
  | _ u ihu =>
    intro p
    induction p using Nat.strong_induction_on with
    | _ p ihp =>
      intro s hu hp hqv hc
      by_cases hqe : s.queue = []
      · exact ⟨0, hqe⟩
      · obtain ⟨b, rest, hbr⟩ : ∃ b rest, s.queue = b :: rest := by
          cases hcase : s.queue with
          | nil => exact absurd hcase hqe
          | cons b rest => exact ⟨b, rest, rfl⟩
        have hvb : validRef s.dfg b := hqv b (hbr ▸ List.mem_cons_self b rest)
        have hqv' : QueueValid (taintStep s) := lm_queueValid_step hqv hc
        have hc' : ClosedDFG (taintStep s).dfg := lm_closed_step hc
        rcases lm_measure_decrease s b rest hbr hvb with hlt | ⟨heq, hflt⟩
        · obtain ⟨n, hn⟩ := ihu (untaintedCount (taintStep s)) (hu ▸ hlt)
            (frontTainted (taintStep s).tainted (taintStep s).queue)
            (taintStep s) rfl rfl hqv' hc'
          exact ⟨n + 1, by rw [lm_taintRun_succ n s hqe]; exact hn⟩
        · obtain ⟨n, hn⟩ := ihp
            (frontTainted (taintStep s).tainted (taintStep s).queue)
            (hp ▸ hflt) (taintStep s) (by rw [heq, hu]) rfl hqv' hc'
          exact ⟨n + 1, by rw [lm_taintRun_succ n s hqe]; exact hn⟩

/-! ### Completeness of the traversal: every reachable block gets visited -/

/-- The tainted list is closed under children up to the pending queue. -/
def TaintedInv (s : TaintState) : Prop :=
  ∀ a ∈ s.tainted, ∀ c ∈ childrenOf s.dfg a, c ∈ s.tainted ∨ c ∈ s.queue

theorem lm_taintStep_nil (s : TaintState) (h : s.queue = []) : taintStep s = s := by
  simp [taintStep, h]

theorem lm_taintedInv_step {s : TaintState} (h : TaintedInv s) :
    TaintedInv (taintStep s) := by
  cases hcase : s.queue with
  | nil =>
    rw [lm_taintStep_nil s hcase]
    exact h
  | cons b rest =>
    rw [lm_taintStep_cons s b rest hcase]
    intro a ha c hc
    simp only at ha hc ⊢
    have hstruct : sameStructure s.dfg (s.dfg.taintChildrenBlocks b) :=
      lm_taintChildrenBlocks_structure s.dfg b
    have hchild : childrenOf (s.dfg.taintChildrenBlocks b) a = childrenOf s.dfg a :=
      lm_childrenOf_structure hstruct a
    rw [hchild] at hc
    rcases List.mem_append.mp ha with hat | hab
    · rcases h a hat c hc with hct | hcq
      · exact Or.inl (List.mem_append_left _ hct)
      · rw [hcase] at hcq
        rcases List.mem_cons.mp hcq with hcb | hcr
        · exact Or.inl (List.mem_append_right _ (by simp [hcb]))
        · exact Or.inr (List.mem_append_left _ hcr)
    · have hab' : a = b := by simpa using hab
      subst hab'
      by_cases hct : c ∈ s.tainted ++ [a]
      · exact Or.inl hct
      · refine Or.inr (List.mem_append_right _ ?_)
        apply List.mem_filter.mpr
        refine ⟨?_, by simpa using hct⟩
        rw [lm_childrenOf_structure hstruct a]
        exact hc

theorem lm_taintedInv_run (n : Nat) (s : TaintState) (h : TaintedInv s) :
    TaintedInv (taintRun n s) := by
  induction n generalizing s with
  | zero => exact h
  | succ n ih =>
    by_cases hqe : s.queue = []
    · rw [lm_taintRun_fix _ _ hqe]; exact h
    · rw [lm_taintRun_succ n s hqe]
      exact ih (taintStep s) (lm_taintedInv_step h)

theorem lm_root_step {s : TaintState} (x : NodeRef)
    (h : x ∈ s.tainted ∨ x ∈ s.queue) :
    x ∈ (taintStep s).tainted ∨ x ∈ (taintStep s).queue := by
  cases hcase : s.queue with
  | nil =>
    rw [lm_taintStep_nil s hcase]
    exact h
  | cons b rest =>
    rw [lm_taintStep_cons s b rest hcase]
    simp only
    rcases h with hx | hx
    · exact Or.inl (List.mem_append_left _ hx)
    · rw [hcase] at hx
      rcases List.mem_cons.mp hx with hxb | hxr
      · exact Or.inl (List.mem_append_right _ (by simp [hxb]))
      · exact Or.inr (List.mem_append_left _ hxr)

theorem lm_root_run (n : Nat) (s : TaintState) (x : NodeRef)
    (h : x ∈ s.tainted ∨ x ∈ s.queue) :
    x ∈ (taintRun n s).tainted ∨ x ∈ (taintRun n s).queue := by
  induction n generalizing s with
  | zero => exact h
  | succ n ih =>
    by_cases hqe : s.queue = []
    · rw [lm_taintRun_fix _ _ hqe]; exact h
    · rw [lm_taintRun_succ n s hqe]
      exact ih (taintStep s) (lm_root_step x h)

/-- One data-flow step of the children relation. -/
def childStep (d : DFG) (a c : NodeRef) : Prop := c ∈ childrenOf d a

theorem lm_closed_reach {d : DFG} {T : List NodeRef}
    (hT : ∀ a ∈ T, ∀ c ∈ childrenOf d a, c ∈ T) {x y : NodeRef}
    (hx : x ∈ T) (h : Relation.ReflTransGen (childStep d) x y) : y ∈ T := by
  induction h with
  | refl => exact hx
  | tail _ hstep ih => exact hT _ ih _ hstep

/-- Core of the termination-and-coverage result, phrased on
`taintVariable`. -/
theorem lm_taintVariable_terminates (d : DFG) (src : Nat)
    (hsrc : src < d.variables_blocks.length) (hcl : ClosedDFG d) :
    ∃ n, (taintVariable n d src).queue = [] ∧
      ∀ x, Relation.ReflTransGen (childStep d) (NodeRef.var src) x →
        x ∈ (taintVariable n d src).tainted := by
  have hstruct0 : sameStructure d (taintInit d src).dfg :=
    lm_setCoeff_structure d (NodeRef.var src) Coeff.one
  have hq0 : QueueValid (taintInit d src) := by
    intro r hr
    have : r = NodeRef.var src := by simpa [taintInit] using hr
    subst this
    exact (lm_validRef_structure hstruct0 _).mp hsrc
  have hc0 : ClosedDFG (taintInit d src).dfg := lm_closed_structure hstruct0 hcl
  obtain ⟨n, hn⟩ := lm_taintRun_terminates (untaintedCount (taintInit d src))
    (frontTainted (taintInit d src).tainted (taintInit d src).queue)
    (taintInit d src) rfl rfl hq0 hc0
  refine ⟨n, hn, ?_⟩
  intro x hx
  have hinv : TaintedInv (taintRun n (taintInit d src)) := by
    apply lm_taintedInv_run
    intro a ha
    simp [taintInit] at ha
  have hroot : NodeRef.var src ∈ (taintRun n (taintInit d src)).tainted ∨
      NodeRef.var src ∈ (taintRun n (taintInit d src)).queue := by
    apply lm_root_run
    exact Or.inr (by simp [taintInit])
  have hchild : ∀ a, childrenOf (taintRun n (taintInit d src)).dfg a = childrenOf d a := by
    intro a
    rw [lm_childrenOf_structure (lm_taintRun_structure n (taintInit d src)) a,
      lm_childrenOf_structure hstruct0 a]
  have hroot' : NodeRef.var src ∈ (taintRun n (taintInit d src)).tainted := by
    rcases hroot with h | h
    · exact h
    · rw [hn] at h
      simp at h
  have hT : ∀ a ∈ (taintRun n (taintInit d src)).tainted,
      ∀ c ∈ childrenOf d a, c ∈ (taintRun n (taintInit d src)).tainted := by
    intro a ha c hc
    rcases hinv a ha c (by rw [hchild a]; exact hc) with h | h
    · exact h
    · rw [hn] at h
      simp at h
  exact lm_closed_reach hT hroot' hx

/-! ### Characterization of block construction -/

/-- Whether `_create_blocks` builds a block for this variable: its function
is non-null and not an import (dfg.py line 127). -/
def keepsVariable (v : Variable) : Bool :=
  match v.function with
  | some f => !f.is_import
  | none => false

/-- A placeholder block (never produced by the builder; used to totalize
functions on variables with a null function). -/
def dummyBlock : DFGVariableBlock :=
  { name := ""
    function := ⟨0, "", false, [], [], []⟩
    is_function_argument := false
    is_function_return_value := false
    graph_representation_name := ""
    parents_blocks := []
    children_blocks := []
    tainting_coefficient := Coeff.zero }

/-- The block `_create_blocks` builds for a kept variable, with the
display-name rule spelled out: the name is prefixed exactly when the bare
name occurs in the precomputed argument-name list. -/
def specBlockOf (args : List String) (v : Variable) : DFGVariableBlock :=
  match v.function with
  | some f =>
    { name := v.name
      function := f
      is_function_argument := v.is_function_argument
      is_function_return_value := v.is_function_return_value
      graph_representation_name :=
        if v.name ∈ args then "f" ++ toString f.id ++ "_" ++ v.name else v.name
      parents_blocks := []
      children_blocks := []
      tainting_coefficient := Coeff.zero }
  | none => dummyBlock

theorem lm_createBlocksStep_eq (d : DFG) (v : Variable) :
    DFG.createBlocksStep d v =
      if keepsVariable v then
        { d with variables_blocks :=
            d.variables_blocks ++ [specBlockOf d.all_functions_arguments v] }
      else d := by
  cases hf : v.function with
  | none => simp [DFG.createBlocksStep, keepsVariable, hf]
  | some f =>
    by_cases hi : f.is_import
    · simp [DFG.createBlocksStep, keepsVariable, hf, hi]
    · simp only [DFG.createBlocksStep, keepsVariable, hf, hi, Bool.not_false, if_true,
        if_false, ite_true]
      congr 1
      simp [specBlockOf, hf, DFG.getVariableName]

theorem lm_createBlocksAux (l : List Variable) (d : DFG) :
    (l.foldl DFG.createBlocksStep d).variables_blocks
      = d.variables_blocks ++
        (l.filter keepsVariable).map (specBlockOf d.all_functions_arguments)
    ∧ (l.foldl DFG.createBlocksStep d).all_functions_arguments
      = d.all_functions_arguments
    ∧ (l.foldl DFG.createBlocksStep d).«variables» = d.«variables»
    ∧ (l.foldl DFG.createBlocksStep d).constants_blocks = d.constants_blocks
    ∧ (l.foldl DFG.createBlocksStep d).functions_calls_blocks
      = d.functions_calls_blocks
    ∧ (l.foldl DFG.createBlocksStep d).edges = d.edges := by
  induction l generalizing d with
  | nil => simp
  | cons v l ih =>
    rw [List.foldl_cons, lm_createBlocksStep_eq d v]
    by_cases hk : keepsVariable v = true
    · rw [if_pos hk]
      obtain ⟨ih1, ih2, ih3, ih4, ih5, ih6⟩ := ih
        { d with variables_blocks :=
            d.variables_blocks ++ [specBlockOf d.all_functions_arguments v] }
      refine ⟨?_, by exact ih2, by exact ih3, by exact ih4, by exact ih5, by exact ih6⟩
      rw [ih1]
      show (d.variables_blocks ++ [specBlockOf d.all_functions_arguments v]) ++ _ = _
      simp [List.filter_cons, hk, List.append_assoc]
    · have hk2 : keepsVariable v = false := by revert hk; cases keepsVariable v <;> simp
      rw [if_neg hk]
      obtain ⟨ih1, ih2, ih3, ih4, ih5, ih6⟩ := ih d
      refine ⟨?_, ih2, ih3, ih4, ih5, ih6⟩
      rw [ih1]
      simp [List.filter_cons, hk2]

/-- What `_create_blocks` produces from a fresh `DFG.init`. -/
theorem lm_createBlocks_result (vs : List Variable) :
    ((DFG.init vs).createBlocks).variables_blocks
      = (vs.filter keepsVariable).map
          (specBlockOf ((DFG.init vs).all_functions_arguments)) := by
  have h := lm_createBlocksAux vs (DFG.init vs)
  simpa [DFG.createBlocks, DFG.init] using h.1

theorem lm_createBlocks_fields (vs : List Variable) :
    ((DFG.init vs).createBlocks).all_functions_arguments
        = (DFG.init vs).all_functions_arguments
    ∧ ((DFG.init vs).createBlocks).«variables» = vs
    ∧ ((DFG.init vs).createBlocks).constants_blocks = []
    ∧ ((DFG.init vs).createBlocks).functions_calls_blocks = []
    ∧ ((DFG.init vs).createBlocks).edges = [] := by
  have h := lm_createBlocksAux vs (DFG.init vs)
  exact ⟨h.2.1, h.2.2.1, h.2.2.2.1, h.2.2.2.2.1, h.2.2.2.2.2⟩

/-- `_create_functions_calls` only appends call blocks. -/
theorem lm_createFunctionsCallsAux (l : List Variable) (d : DFG) :
    (l.foldl DFG.createFunctionsCallsStep d).«variables» = d.«variables»
    ∧ (l.foldl DFG.createFunctionsCallsStep d).all_functions_arguments
      = d.all_functions_arguments
    ∧ (l.foldl DFG.createFunctionsCallsStep d).variables_blocks
      = d.variables_blocks
    ∧ (l.foldl DFG.createFunctionsCallsStep d).constants_blocks
      = d.constants_blocks
    ∧ (l.foldl DFG.createFunctionsCallsStep d).edges = d.edges := by
  induction l generalizing d with
  | nil => simp
  | cons v l ih =>
    show ((l.foldl DFG.createFunctionsCallsStep (DFG.createFunctionsCallsStep d v)).«variables» = _) ∧ _
    obtain ⟨ih1, ih2, ih3, ih4, ih5⟩ := ih (DFG.createFunctionsCallsStep d v)
    have hfields :
        (DFG.createFunctionsCallsStep d v).«variables» = d.«variables»
        ∧ (DFG.createFunctionsCallsStep d v).all_functions_arguments
          = d.all_functions_arguments
        ∧ (DFG.createFunctionsCallsStep d v).variables_blocks = d.variables_blocks
        ∧ (DFG.createFunctionsCallsStep d v).constants_blocks = d.constants_blocks
        ∧ (DFG.createFunctionsCallsStep d v).edges = d.edges := by
      cases hv : v.value with
      | none => simp [DFG.createFunctionsCallsStep, hv]
      | some vv =>
        cases vv with
        | direct elems => simp [DFG.createFunctionsCallsStep, hv]
        | call f cn => simp [DFG.createFunctionsCallsStep, hv]
    exact ⟨ih1.trans hfields.1, ih2.trans hfields.2.1, ih3.trans hfields.2.2.1,
      ih4.trans hfields.2.2.2.1, ih5.trans hfields.2.2.2.2⟩

/-! ### Characterization of edge construction -/

/-- Declarative form of the source resolution of dfg.py lines 192-205, one
operand at a time: a list payload selects the same-function blocks whose
name occurs in the list; a scalar payload selects the same-function blocks
whose name equals the destination variable's own name (not the operand's
referenced name). -/
def specSourceIndexes (d : DFG) (v : Variable) (ops : List Operand) : List Nat :=
  ops.bind (fun p =>
    match p.value with
    | OpPayload.multi vs =>
        (List.range d.variables_blocks.length).filter (fun i =>
          match d.variables_blocks.get? i with
          | some b => decide (v.function = some b.function) && decide (Scalar.str b.name ∈ vs)
          | none => false)
    | OpPayload.single _ =>
        (List.range d.variables_blocks.length).filter (fun i =>
          match d.variables_blocks.get? i with
          | some b => decide (v.function = some b.function) && decide (b.name = v.name)
          | none => false))

theorem lm_sourceIndexes_spec (d : DFG) (v : Variable) (ops : List Operand) :
    d.sourceIndexes v ops = specSourceIndexes d v ops := by
  have haux : ∀ (l : List Operand) (acc : List Nat),
      l.foldl (fun acc p =>
        match p.value with
        | OpPayload.multi vs =>
            acc ++ (List.range d.variables_blocks.length).filter (fun i =>
              match d.variables_blocks.get? i with
              | some b => decide (v.function = some b.function) && decide (Scalar.str b.name ∈ vs)
              | none => false)
        | OpPayload.single _ =>
            acc ++ (List.range d.variables_blocks.length).filter (fun i =>
              match d.variables_blocks.get? i with
              | some b => decide (v.function = some b.function) && decide (b.name = v.name)
              | none => false)) acc
        = acc ++ specSourceIndexes d v l := by
    intro l
    induction l with
    | nil => intro acc; simp [specSourceIndexes]
    | cons p ps ih =>
      intro acc
      cases hp : p.value with
      | multi vs =>
        simp only [List.foldl_cons, hp]
        rw [ih]
        simp [specSourceIndexes, hp, List.append_assoc]
      | single x =>
        simp only [List.foldl_cons, hp]
        rw [ih]
        simp [specSourceIndexes, hp, List.append_assoc]
  simpa [DFG.sourceIndexes] using haux ops []

theorem lm_sourceIndexes_lt (d : DFG) (v : Variable) (ops : List Operand) :
    ∀ i ∈ d.sourceIndexes v ops, i < d.variables_blocks.length := by
  rw [lm_sourceIndexes_spec]
  intro i hi
  rcases List.mem_bind.mp hi with ⟨p, _, hp⟩
  cases hpv : p.value with
  | multi vs =>
    rw [hpv] at hp
    exact List.mem_range.mp (List.mem_of_mem_filter hp)
  | single x =>
    rw [hpv] at hp
    exact List.mem_range.mp (List.mem_of_mem_filter hp)

theorem lm_destIndex_lt (d : DFG) (v : Variable) (di : Nat)
    (h : d.destIndex? v = some di) : di < d.variables_blocks.length := by
  have : di ∈ (List.range d.variables_blocks.length).filter (fun i =>
      match d.variables_blocks.get? i with
      | some b => destMatches v b
      | none => false) := by
    unfold DFG.destIndex? at h
    exact List.mem_of_mem_head? h
  exact List.mem_range.mp (List.mem_of_mem_filter this)

/-- Field equations of `addVariableEdge`. -/
theorem lm_addVariableEdge_fields (d : DFG) (si di : Nat) (fn : Option Function) :
    (d.addVariableEdge si di fn).«variables» = d.«variables»
    ∧ (d.addVariableEdge si di fn).all_functions_arguments = d.all_functions_arguments
    ∧ (d.addVariableEdge si di fn).constants_blocks = d.constants_blocks
    ∧ (d.addVariableEdge si di fn).functions_calls_blocks = d.functions_calls_blocks
    ∧ (d.addVariableEdge si di fn).edges = d.edges ++
        [{ source := NodeRef.var si, destination := NodeRef.var di, function := fn }] := by
  refine ⟨rfl, rfl, rfl, rfl, rfl⟩

/-- Entry-wise effect of `addVariableEdge` on the variable blocks. -/
theorem lm_addVariableEdge_get? (d : DFG) (si di : Nat) (fn : Option Function)
    (j : Nat) (b : DFGVariableBlock) (hj : d.variables_blocks.get? j = some b) :
    (d.addVariableEdge si di fn).variables_blocks.get? j = some
      { b with
        children_blocks := b.children_blocks ++
          (if j = si then [NodeRef.var di] else []),
        parents_blocks := b.parents_blocks ++
          (if j = di then [NodeRef.var si] else []) } := by
  show (listModify (listModify d.variables_blocks si _) di _).get? j = _
  rw [List.get?_eq_getElem?] at hj ⊢
  rw [lm_listModify_get?, lm_listModify_get?]
  by_cases hsi : j = si
  · subst hsi
    by_cases hdi : j = di
    · subst hdi
      simp [hj]
    · simp [hdi, hj]
  · by_cases hdi : j = di
    · subst hdi
      simp [hsi, hj]
    · simp [hsi, hdi, hj]

/-- Cumulative effect of the loop of dfg.py lines 207-210 over a list of
resolved source indices: one edge per source, the destination appended to
each source's children once per occurrence, and every source appended to the
destination's parents in order. -/
theorem lm_foldVarEdges (srcs : List Nat) (d : DFG) (di : Nat) (fn : Option Function) :
    ((srcs.foldl (fun d2 si => d2.addVariableEdge si di fn) d).«variables» = d.«variables»)
    ∧ ((srcs.foldl (fun d2 si => d2.addVariableEdge si di fn) d).all_functions_arguments
        = d.all_functions_arguments)
    ∧ ((srcs.foldl (fun d2 si => d2.addVariableEdge si di fn) d).constants_blocks
        = d.constants_blocks)
    ∧ ((srcs.foldl (fun d2 si => d2.addVariableEdge si di fn) d).functions_calls_blocks
        = d.functions_calls_blocks)
    ∧ ((srcs.foldl (fun d2 si => d2.addVariableEdge si di fn) d).edges
        = d.edges ++ srcs.map (fun si =>
            { source := NodeRef.var si, destination := NodeRef.var di, function := fn }))
    ∧ ∀ j b, d.variables_blocks.get? j = some b →
        (srcs.foldl (fun d2 si => d2.addVariableEdge si di fn) d).variables_blocks.get? j
          = some { b with
              children_blocks := b.children_blocks ++
                List.replicate (srcs.count j) (NodeRef.var di),
              parents_blocks := b.parents_blocks ++
                (if j = di then srcs.map NodeRef.var else []) } := by
  induction srcs generalizing d with
  | nil =>
    refine ⟨rfl, rfl, rfl, rfl, by simp, ?_⟩
    intro j b hj
    simpa using hj
  | cons si rest ih =>
    obtain ⟨ih1, ih2, ih3, ih4, ih5, ih6⟩ := ih (d.addVariableEdge si di fn)
    rw [List.foldl_cons]
    refine ⟨ih1, ih2, ih3, ih4, ?_, ?_⟩
    · rw [ih5, (lm_addVariableEdge_fields d si di fn).2.2.2.2]
      simp [List.append_assoc]
    · intro j b hj
      have hstep := lm_addVariableEdge_get? d si di fn j b hj
      have := ih6 j _ hstep
      rw [this]
      by_cases hjs : j = si
      · subst hjs
        by_cases hjd : j = di
        · subst hjd
          simp [List.count_cons, List.replicate_succ, List.append_assoc]
        · simp [hjd, List.count_cons, List.replicate_succ, List.append_assoc]
      · by_cases hjd : j = di
        · subst hjd
          have hns : (si == j) = false := by
            simp [Ne.symm hjs]
          simp [List.count_cons, hjs, Ne.symm hjs, List.append_assoc]
        · simp [List.count_cons, hjs, Ne.symm hjs, hjd, List.append_assoc]

/-- The literal stored by a constant operand: a scalar payload itself, a
list payload its first element. -/
def litOf : OpPayload → Scalar
  | OpPayload.single x => x
  | OpPayload.multi vs => vs.headD (Scalar.int 0)

/-- The constant blocks allocated for the integer operands of one variable,
with sequential ids starting at `start`. -/
def specNewConstants (v : Variable) : Nat → List Operand → List DFGConstantBlock
  | _, [] => []
  | start, p :: ps =>
    { value := litOf p.value
      id := start
      «variable» := v
      function := v.function
      tainting_coefficient := Coeff.zero } :: specNewConstants v (start + 1) ps

/-- The edges emitted for the integer operands of one variable. -/
def specConstEdges (v : Variable) (di : Nat) : Nat → List Operand → List DFGEdge
  | _, [] => []
  | start, p :: ps =>
    { source := NodeRef.const start
      destination := NodeRef.var di
      function := v.function } :: specConstEdges v di (start + 1) ps

/-- Cumulative effect of the loop of dfg.py lines 213-229 when no integer
operand carries an empty list payload. -/
theorem lm_foldConsts (ps : List Operand) (d : DFG) (v : Variable) (di : Nat)
    (hne : ∀ p ∈ ps, p.value ≠ OpPayload.multi []) :
    ps.foldlM (fun d2 p => d2.addConstantEdge v di p) d
      = Except.ok { d with
          constants_blocks := d.constants_blocks ++
            specNewConstants v d.constants_blocks.length ps
          edges := d.edges ++
            specConstEdges v di d.constants_blocks.length ps } := by
  induction ps generalizing d with
  | nil =>
    simp only [List.foldlM_nil, specNewConstants, specConstEdges, List.append_nil]
    rfl
  | cons p ps ih =>
    rw [List.foldlM_cons]
    cases hpv : p.value with
    | multi vs =>
      cases vs with
      | nil => exact absurd hpv (hne p (List.mem_cons_self p ps))
      | cons x xs =>
        have hstep : d.addConstantEdge v di p = Except.ok (d.pushConstant x v di) := by
          simp [DFG.addConstantEdge, hpv]
        rw [hstep]
        have hbind : (Except.ok (d.pushConstant x v di) >>= fun d2 =>
            List.foldlM (fun d3 q => d3.addConstantEdge v di q) d2 ps)
            = List.foldlM (fun d3 q => d3.addConstantEdge v di q) (d.pushConstant x v di) ps := rfl
        rw [hbind]
        rw [ih (d.pushConstant x v di) (fun q hq => hne q (List.mem_cons_of_mem p hq))]
        congr 1
        simp [DFG.pushConstant, specNewConstants, specConstEdges, hpv, litOf,
          List.append_assoc]
    | single x =>
      have hstep : d.addConstantEdge v di p = Except.ok (d.pushConstant x v di) := by
        simp [DFG.addConstantEdge, hpv]
      rw [hstep]
      have hbind : (Except.ok (d.pushConstant x v di) >>= fun d2 =>
          List.foldlM (fun d3 q => d3.addConstantEdge v di q) d2 ps)
          = List.foldlM (fun d3 q => d3.addConstantEdge v di q) (d.pushConstant x v di) ps := rfl
      rw [hbind]
      rw [ih (d.pushConstant x v di) (fun q hq => hne q (List.mem_cons_of_mem p hq))]
      congr 1
      simp [DFG.pushConstant, specNewConstants, specConstEdges, hpv, litOf,
        List.append_assoc]

/-- The constants loop fails exactly when some integer operand carries an
empty list payload. -/
theorem lm_foldConsts_error (ps : List Operand) (d : DFG) (v : Variable) (di : Nat) :
    (∃ e, ps.foldlM (fun d2 p => d2.addConstantEdge v di p) d = Except.error e)
      ↔ ∃ p ∈ ps, p.value = OpPayload.multi [] := by
  induction ps generalizing d with
  | nil =>
    constructor
    · rintro ⟨e, he⟩
      exact Except.noConfusion he
    · rintro ⟨p, hp, _⟩
      simp at hp
  | cons p ps ih =>
    rw [List.foldlM_cons]
    cases hpv : p.value with
    | multi vs =>
      cases vs with
      | nil =>
        have hstep : d.addConstantEdge v di p = Except.error "IndexError" := by
          simp [DFG.addConstantEdge, hpv]
        rw [hstep]
        constructor
        · intro _
          exact ⟨p, List.mem_cons_self p ps, hpv⟩
        · intro _
          exact ⟨"IndexError", rfl⟩
      | cons x xs =>
        have hstep : d.addConstantEdge v di p = Except.ok (d.pushConstant x v di) := by
          simp [DFG.addConstantEdge, hpv]
        rw [hstep]
        have hbind : (Except.ok (d.pushConstant x v di) >>= fun d2 =>
            List.foldlM (fun d3 q => d3.addConstantEdge v di q) d2 ps)
            = List.foldlM (fun d3 q => d3.addConstantEdge v di q) (d.pushConstant x v di) ps := rfl
        rw [hbind]
        rw [ih (d.pushConstant x v di)]
        constructor
        · rintro ⟨q, hq, hqv⟩
          exact ⟨q, List.mem_cons_of_mem p hq, hqv⟩
        · rintro ⟨q, hq, hqv⟩
          rcases List.mem_cons.mp hq with hq | hq
          · subst hq
            rw [hpv] at hqv
            simp at hqv
          · exact ⟨q, hq, hqv⟩
    | single x =>
      have hstep : d.addConstantEdge v di p = Except.ok (d.pushConstant x v di) := by
        simp [DFG.addConstantEdge, hpv]
      rw [hstep]
      have hbind : (Except.ok (d.pushConstant x v di) >>= fun d2 =>
          List.foldlM (fun d3 q => d3.addConstantEdge v di q) d2 ps)
          = List.foldlM (fun d3 q => d3.addConstantEdge v di q) (d.pushConstant x v di) ps := rfl
      rw [hbind]
      rw [ih (d.pushConstant x v di)]
      constructor
      · rintro ⟨q, hq, hqv⟩
        exact ⟨q, List.mem_cons_of_mem p hq, hqv⟩
      · rintro ⟨q, hq, hqv⟩
        rcases List.mem_cons.mp hq with hq | hq
        · subst hq
          rw [hpv] at hqv
          simp at hqv
        · exact ⟨q, hq, hqv⟩

/-- Unfolding of one `_create_edges` iteration on a direct-expression
variable whose destination lookup succeeds. -/
theorem lm_createEdgesStep_direct (d : DFG) (v : Variable) (elems : List ValueElement)
    (hval : v.value = some (VariableValue.direct elems)) (di : Nat)
    (hdi : d.destIndex? v = some di) :
    DFG.createEdgesStep d v =
      ((parentsOperands elems).filter
          (fun o => decide (o.type = OperandType.INTEGER))).foldlM
        (fun d2 p => d2.addConstantEdge v di p)
        ((d.sourceIndexes v ((parentsOperands elems).filter
            (fun o => decide (o.type = OperandType.VARIABLE)))).foldl
          (fun d2 si => d2.addVariableEdge si di v.function) d) := by
  simp [DFG.createEdgesStep, hval, hdi]

/-- Whether some existing variable block matches `(function, name)` of `v`. -/
def hasMatchingBlockB (d : DFG) (v : Variable) : Bool :=
  d.variables_blocks.any (fun b => destMatches v b)

theorem lm_destIndex_none (d : DFG) (v : Variable) :
    d.destIndex? v = none ↔ hasMatchingBlockB d v = false := by
  constructor
  · intro h
    by_contra hb
    have hb' : hasMatchingBlockB d v = true := by
      revert hb; cases hasMatchingBlockB d v <;> simp
    rcases List.any_eq_true.mp hb' with ⟨b, hbmem, hbmatch⟩
    rcases List.mem_iff_get?.mp hbmem with ⟨i, hgi⟩
    have hi : i < d.variables_blocks.length := by
      rcases List.get?_eq_some.mp hgi with ⟨hlt, _⟩
      exact hlt
    have hmemf : i ∈ (List.range d.variables_blocks.length).filter (fun j =>
        match d.variables_blocks.get? j with
        | some b => destMatches v b
        | none => false) := by
      apply List.mem_filter.mpr
      refine ⟨List.mem_range.mpr hi, ?_⟩
      rw [hgi]
      exact hbmatch
    unfold DFG.destIndex? at h
    have hnil := List.head?_eq_none_iff.mp h
    rw [hnil] at hmemf
    simp at hmemf
  · intro h
    unfold DFG.destIndex?
    rw [List.head?_eq_none_iff]
    apply List.filter_eq_nil_iff.mpr
    intro i hi
    cases hgi : d.variables_blocks.get? i with
    | none => simp
    | some b =>
      have hbmem : b ∈ d.variables_blocks := List.get?_mem hgi
      have : destMatches v b = false := by
        by_contra hb
        have hb' : destMatches v b = true := by
          revert hb; cases destMatches v b <;> simp
        have : hasMatchingBlockB d v = true :=
          List.any_eq_true.mpr ⟨b, hbmem, hb'⟩
        rw [h] at this
        simp at this
      simp [this]

/-- Whether a direct expression holds an integer operand with an empty list
payload (the other way `_create_edges` can raise `IndexError`). -/
def hasEmptyIntPayloadB (elems : List ValueElement) : Bool :=
  (parentsOperands elems).any (fun o =>
    decide (o.type = OperandType.INTEGER) && decide (o.value = OpPayload.multi []))

/-- Whether one `_create_edges` iteration raises for this variable. -/
def stepFailsB (d : DFG) (v : Variable) : Bool :=
  match v.value with
  | some (VariableValue.direct elems) =>
      !(hasMatchingBlockB d v) || hasEmptyIntPayloadB elems
  | _ => false

theorem lm_createEdgesStep_error (d : DFG) (v : Variable) :
    (∃ e, DFG.createEdgesStep d v = Except.error e) ↔ stepFailsB d v = true := by
  cases hval : v.value with
  | none =>
    simp [DFG.createEdgesStep, stepFailsB, hval]
  | some vv =>
    cases vv with
    | call f cn => simp [DFG.createEdgesStep, stepFailsB, hval]
    | direct elems =>
      cases hdi : d.destIndex? v with
      | none =>
        have hm : hasMatchingBlockB d v = false := (lm_destIndex_none d v).mp hdi
        simp [DFG.createEdgesStep, stepFailsB, hval, hdi, hm]
      | some di =>
        have hm : hasMatchingBlockB d v = true := by
          cases hmb : hasMatchingBlockB d v with
          | true => rfl
          | false =>
            have := (lm_destIndex_none d v).mpr hmb
            rw [hdi] at this
            exact Option.noConfusion this
        rw [lm_createEdgesStep_direct d v elems hval di hdi]
        rw [lm_foldConsts_error]
        rw [stepFailsB, hval]
        simp only [hm, Bool.not_true, Bool.false_or]
        constructor
        · rintro ⟨p, hp, hpv⟩
          apply List.any_eq_true.mpr
          refine ⟨p, List.mem_of_mem_filter hp, ?_⟩
          have := (List.mem_filter.mp hp).2
          simp only [decide_eq_true_eq] at this
          simp [this, hpv]
        · intro h
          rcases List.any_eq_true.mp h with ⟨p, hp, hcond⟩
          simp only [Bool.and_eq_true, decide_eq_true_eq] at hcond
          refine ⟨p, ?_, hcond.2⟩
          apply List.mem_filter.mpr
          exact ⟨hp, by simp [hcond.1]⟩

/-- The ok-case of the constants loop never touches variable blocks or the
variables list. -/
theorem lm_foldConsts_ok_blocks (ps : List Operand) (d : DFG) (v : Variable)
    (di : Nat) (d' : DFG)
    (h : ps.foldlM (fun d2 p => d2.addConstantEdge v di p) d = Except.ok d') :
    d'.variables_blocks = d.variables_blocks ∧ d'.«variables» = d.«variables»
    ∧ d'.all_functions_arguments = d.all_functions_arguments
    ∧ d'.functions_calls_blocks = d.functions_calls_blocks := by
  induction ps generalizing d with
  | nil =>
    have : d' = d := by
      have h' : (Except.ok d : Except String DFG) = Except.ok d' := h
      exact (Except.ok.inj h').symm
    subst this
    exact ⟨rfl, rfl, rfl, rfl⟩
  | cons p ps ih =>
    rw [List.foldlM_cons] at h
    cases hpv : p.value with
    | multi vs =>
      cases vs with
      | nil =>
        rw [show d.addConstantEdge v di p = Except.error "IndexError" by
          simp [DFG.addConstantEdge, hpv]] at h
        exact Except.noConfusion h
      | cons x xs =>
        rw [show d.addConstantEdge v di p = Except.ok (d.pushConstant x v di) by
          simp [DFG.addConstantEdge, hpv]] at h
        have h' : ps.foldlM (fun d2 q => d2.addConstantEdge v di q)
            (d.pushConstant x v di) = Except.ok d' := h
        exact ih (d.pushConstant x v di) h'
    | single x =>
      rw [show d.addConstantEdge v di p = Except.ok (d.pushConstant x v di) by
        simp [DFG.addConstantEdge, hpv]] at h
      have h' : ps.foldlM (fun d2 q => d2.addConstantEdge v di q)
          (d.pushConstant x v di) = Except.ok d' := h
      exact ih (d.pushConstant x v di) h'

/-- `addVariableEdge` does not change any block's `(function, name)`. -/
theorem lm_listModify_sig (l : List DFGVariableBlock) (i : Nat)
    (g : DFGVariableBlock → DFGVariableBlock)
    (hg : ∀ b, (g b).function = b.function ∧ (g b).name = b.name) :
    (listModify l i g).map (fun b => (b.function, b.name))
      = l.map (fun b => (b.function, b.name)) := by
  apply lm_listModify_map
  intro a
  simp [(hg a).1, (hg a).2]

theorem lm_addVariableEdge_sig (d : DFG) (si di : Nat) (fn : Option Function) :
    (d.addVariableEdge si di fn).variables_blocks.map (fun b => (b.function, b.name))
      = d.variables_blocks.map (fun b => (b.function, b.name)) := by
  exact (lm_listModify_sig
      (listModify d.variables_blocks si (fun b =>
        { b with children_blocks := b.children_blocks ++ [NodeRef.var di] }))
      di
      (fun b => { b with parents_blocks := b.parents_blocks ++ [NodeRef.var si] })
      (fun b => ⟨rfl, rfl⟩)).trans
    (lm_listModify_sig d.variables_blocks si
      (fun b => { b with children_blocks := b.children_blocks ++ [NodeRef.var di] })
      (fun b => ⟨rfl, rfl⟩))

theorem lm_foldVarEdges_sig (srcs : List Nat) (d : DFG) (di : Nat) (fn : Option Function) :
    ((srcs.foldl (fun d2 si => d2.addVariableEdge si di fn) d).variables_blocks.map
        (fun b => (b.function, b.name)))
      = d.variables_blocks.map (fun b => (b.function, b.name)) := by
  induction srcs generalizing d with
  | nil => rfl
  | cons si rest ih =>
    rw [List.foldl_cons, ih (d.addVariableEdge si di fn), lm_addVariableEdge_sig]

/-- Matching-block existence only depends on the `(function, name)` data. -/
theorem lm_hasMatching_sig {d d' : DFG} (v : Variable)
    (h : d'.variables_blocks.map (fun b => (b.function, b.name))
        = d.variables_blocks.map (fun b => (b.function, b.name))) :
    hasMatchingBlockB d' v = hasMatchingBlockB d v := by
  unfold hasMatchingBlockB
  have hany : ∀ l : List DFGVariableBlock,
      l.any (fun b => destMatches v b)
        = (l.map (fun b => (b.function, b.name))).any (fun q =>
            decide (v.function = some q.1) && decide (v.name = q.2)) := by
    intro l
    induction l with
    | nil => rfl
    | cons b bs ih =>
      simp only [List.map_cons, List.any_cons, ih]
      rfl
  rw [hany, hany, h]

theorem lm_stepFails_sig {d d' : DFG} (v : Variable)
    (h : d'.variables_blocks.map (fun b => (b.function, b.name))
        = d.variables_blocks.map (fun b => (b.function, b.name))) :
    stepFailsB d' v = stepFailsB d v := by
  unfold stepFailsB
  cases v.value with
  | none => rfl
  | some vv =>
    cases vv with
    | direct elems => rw [lm_hasMatching_sig v h]
    | call f cn => rfl

/-- A successful `_create_edges` iteration preserves every block's
`(function, name)` and the variables list. -/
theorem lm_createEdgesStep_sig (d : DFG) (v : Variable) (d' : DFG)
    (h : DFG.createEdgesStep d v = Except.ok d') :
    d'.variables_blocks.map (fun b => (b.function, b.name))
        = d.variables_blocks.map (fun b => (b.function, b.name))
    ∧ d'.«variables» = d.«variables» := by
  cases hval : v.value with
  | none =>
    have h' : (Except.ok d : Except String DFG) = Except.ok d' := by
      rw [← h]; simp [DFG.createEdgesStep, hval]
    have := Except.ok.inj h'
    subst this
    exact ⟨rfl, rfl⟩
  | some vv =>
    cases vv with
    | call f cn =>
      have h' : (Except.ok d : Except String DFG) = Except.ok d' := by
        rw [← h]; simp [DFG.createEdgesStep, hval]
      have := Except.ok.inj h'
      subst this
      exact ⟨rfl, rfl⟩
    | direct elems =>
      cases hdi : d.destIndex? v with
      | none =>
        rw [DFG.createEdgesStep] at h
        rw [hval] at h
        simp only [hdi] at h
        exact Except.noConfusion h
      | some di =>
        rw [lm_createEdgesStep_direct d v elems hval di hdi] at h
        obtain ⟨h1, h2, _, _⟩ := lm_foldConsts_ok_blocks _ _ _ _ _ h
        constructor
        · rw [h1, lm_foldVarEdges_sig]
        · rw [h2]
          exact (lm_foldVarEdges _ _ _ _).1

/-- `_create_edges` fails exactly when some variable fails its own
iteration; the per-variable test does not depend on the evolving state. -/
theorem lm_edgesFold_error (l : List Variable) (d : DFG) :
    (∃ e, l.foldlM DFG.createEdgesStep d = Except.error e)
      ↔ ∃ v ∈ l, stepFailsB d v = true := by
  induction l generalizing d with
  | nil =>
    constructor
    · rintro ⟨e, he⟩
      exact Except.noConfusion he
    · rintro ⟨v, hv, _⟩
      simp at hv
  | cons v l ih =>
    rw [List.foldlM_cons]
    cases hstep : DFG.createEdgesStep d v with
    | error e =>
      have hbind : (Except.error e >>= fun d2 => l.foldlM DFG.createEdgesStep d2)
          = (Except.error e : Except String DFG) := rfl
      rw [hbind]
      have hfail : stepFailsB d v = true :=
        (lm_createEdgesStep_error d v).mp ⟨e, hstep⟩
      constructor
      · intro _
        exact ⟨v, List.mem_cons_self v l, hfail⟩
      · intro _
        exact ⟨e, rfl⟩
    | ok d1 =>
      have hbind : (Except.ok d1 >>= fun d2 => l.foldlM DFG.createEdgesStep d2)
          = l.foldlM DFG.createEdgesStep d1 := rfl
      rw [hbind]
      rw [ih d1]
      have hsig := (lm_createEdgesStep_sig d v d1 hstep).1
      have hnofail : stepFailsB d v = false := by
        cases hf : stepFailsB d v with
        | false => rfl
        | true =>
          rcases (lm_createEdgesStep_error d v).mpr hf with ⟨e, he⟩
          rw [hstep] at he
          exact Except.noConfusion he
      constructor
      · rintro ⟨w, hw, hfail⟩
        refine ⟨w, List.mem_cons_of_mem v hw, ?_⟩
        rw [← lm_stepFails_sig w hsig]
        exact hfail
      · rintro ⟨w, hw, hfail⟩
        rcases List.mem_cons.mp hw with hwv | hwl
        · subst hwv
          rw [hnofail] at hfail
          exact Bool.noConfusion hfail
        · refine ⟨w, hwl, ?_⟩
          rw [lm_stepFails_sig w hsig]
          exact hfail

/-- Fields of the spec block of a kept variable. -/
theorem lm_specBlockOf_fields (args : List String) (v : Variable) (f : Function)
    (hf : v.function = some f) :
    (specBlockOf args v).function = f ∧ (specBlockOf args v).name = v.name
    ∧ (specBlockOf args v).children_blocks = []
    ∧ (specBlockOf args v).parents_blocks = [] := by
  simp [specBlockOf, hf]

/-- A variable that never trips `_create_edges` when blocks come from the
same list: any direct value requires a non-null, non-import function and no
empty integer list payload. -/
def goodVarB (v : Variable) : Bool :=
  match v.value with
  | some (VariableValue.direct elems) =>
      keepsVariable v && !(hasEmptyIntPayloadB elems)
  | _ => true

/-- The state on which `_create_edges` runs inside `_create_dfg`. -/
def edgesStage (vs : List Variable) : DFG :=
  ((DFG.init vs).createBlocks).createFunctionsCalls

theorem lm_edgesStage_fields (vs : List Variable) :
    (edgesStage vs).«variables» = vs
    ∧ (edgesStage vs).variables_blocks
        = (vs.filter keepsVariable).map
            (specBlockOf ((DFG.init vs).all_functions_arguments))
    ∧ (edgesStage vs).constants_blocks = []
    ∧ (edgesStage vs).edges = [] := by
  have h1 := lm_createFunctionsCallsAux
    (((DFG.init vs).createBlocks).«variables») ((DFG.init vs).createBlocks)
  have h2 := lm_createBlocks_fields vs
  refine ⟨?_, ?_, ?_, ?_⟩
  · exact h1.1.trans h2.2.1
  · exact (h1.2.2.1).trans (lm_createBlocks_result vs)
  · exact (h1.2.2.2.1).trans h2.2.2.1
  · exact (h1.2.2.2.2).trans h2.2.2.2.2

theorem lm_createDfg_eq (vs : List Variable) :
    createDfg vs = vs.foldlM DFG.createEdgesStep (edgesStage vs) := by
  show (edgesStage vs).createEdges = _
  unfold DFG.createEdges
  rw [(lm_edgesStage_fields vs).1]

/-- Under the good-variable conditions, graph construction succeeds. -/
theorem lm_createDfg_ok (vs : List Variable) (h : ∀ v ∈ vs, goodVarB v = true) :
    ∃ d, createDfg vs = Except.ok d := by
  rw [lm_createDfg_eq]
  have hnofail : ¬ ∃ v ∈ vs, stepFailsB (edgesStage vs) v = true := by
    rintro ⟨v, hv, hfail⟩
    have hgood := h v hv
    unfold stepFailsB at hfail
    unfold goodVarB at hgood
    cases hval : v.value with
    | none => rw [hval] at hfail; simp at hfail
    | some vv =>
      cases vv with
      | call f cn => rw [hval] at hfail; simp at hfail
      | direct elems =>
        rw [hval] at hfail hgood
        simp only [Bool.and_eq_true, Bool.not_eq_true'] at hgood
        obtain ⟨hkeep, hempty⟩ := hgood
        have hf : ∃ f, v.function = some f ∧ f.is_import = false := by
          unfold keepsVariable at hkeep
          cases hfv : v.function with
          | none => rw [hfv] at hkeep; simp at hkeep
          | some f =>
            rw [hfv] at hkeep
            simp at hkeep
            exact ⟨f, rfl, hkeep⟩
        obtain ⟨f, hfv, _⟩ := hf
        have hmatch : hasMatchingBlockB (edgesStage vs) v = true := by
          apply List.any_eq_true.mpr
          refine ⟨specBlockOf ((DFG.init vs).all_functions_arguments) v, ?_, ?_⟩
          · rw [(lm_edgesStage_fields vs).2.1]
            apply List.mem_map_of_mem
            apply List.mem_filter.mpr
            exact ⟨hv, hkeep⟩
          · obtain ⟨hbf, hbn, _, _⟩ :=
              lm_specBlockOf_fields ((DFG.init vs).all_functions_arguments) v f hfv
            unfold destMatches
            rw [hbf, hbn, hfv]
            simp
        rw [hmatch] at hfail
        simp [hempty] at hfail
  cases hres : vs.foldlM DFG.createEdgesStep (edgesStage vs) with
  | ok d => exact ⟨d, rfl⟩
  | error e =>
    exact absurd ((lm_edgesFold_error vs (edgesStage vs)).mp ⟨e, hres⟩) hnofail

/-! ### Structural invariants established by graph construction -/

/-- All relational references of all variable blocks point at existing
variable blocks. -/
def RefsOk (d : DFG) : Prop :=
  ∀ b ∈ d.variables_blocks,
    (∀ c ∈ b.children_blocks,
      ∃ j, c = NodeRef.var j ∧ j < d.variables_blocks.length) ∧
    (∀ p ∈ b.parents_blocks,
      ∃ j, p = NodeRef.var j ∧ j < d.variables_blocks.length)

/-- The constant-block ids are exactly `0, 1, 2, ...` in order. -/
def constIdsOk (d : DFG) : Prop :=
  d.constants_blocks.map (fun c => c.id) = List.range d.constants_blocks.length

/-- No constant block carries a nonzero tainting coefficient. -/
def constsZero (d : DFG) : Prop :=
  ∀ c ∈ d.constants_blocks, c.tainting_coefficient = Coeff.zero

theorem lm_addVariableEdge_len (d : DFG) (si di : Nat) (fn : Option Function) :
    (d.addVariableEdge si di fn).variables_blocks.length
      = d.variables_blocks.length := by
  show (listModify (listModify _ si _) di _).length = _
  rw [lm_listModify_length, lm_listModify_length]

theorem lm_addVariableEdge_refsOk (d : DFG) (si di : Nat) (fn : Option Function)
    (hsi : si < d.variables_blocks.length) (hdi : di < d.variables_blocks.length)
    (h : RefsOk d) : RefsOk (d.addVariableEdge si di fn) := by
  intro b' hb'
  have hlen := lm_addVariableEdge_len d si di fn
  have hmem : (∃ b2 ∈ d.variables_blocks,
      (b'.children_blocks = b2.children_blocks
        ∨ b'.children_blocks = b2.children_blocks ++ [NodeRef.var di]) ∧
      (b'.parents_blocks = b2.parents_blocks
        ∨ b'.parents_blocks = b2.parents_blocks ++ [NodeRef.var si])) := by
    have hb'' : b' ∈ listModify (listModify d.variables_blocks si
        (fun b => { b with children_blocks := b.children_blocks ++ [NodeRef.var di] })) di
        (fun b => { b with parents_blocks := b.parents_blocks ++ [NodeRef.var si] }) := hb'
    rcases lm_mem_listModify _ _ _ _ hb'' with ⟨a, ha, hba⟩ | hbin
    · rcases lm_mem_listModify _ _ _ _ ha with ⟨b2, hb2, hab⟩ | hain
      · exact ⟨b2, hb2, Or.inr (by rw [hba, hab]), Or.inr (by rw [hba, hab])⟩
      · exact ⟨a, hain, Or.inl (by rw [hba]), Or.inr (by rw [hba])⟩
    · rcases lm_mem_listModify _ _ _ _ hbin with ⟨b2, hb2, hab⟩ | hain
      · exact ⟨b2, hb2, Or.inr (by rw [hab]), Or.inl (by rw [hab])⟩
      · exact ⟨b', hain, Or.inl rfl, Or.inl rfl⟩
  obtain ⟨b2, hb2, hch, hpar⟩ := hmem
  obtain ⟨hc2, hp2⟩ := h b2 hb2
  rw [hlen]
  constructor
  · intro c hc
    rcases hch with he | he
    · rw [he] at hc
      exact hc2 c hc
    · rw [he] at hc
      rcases List.mem_append.mp hc with hc | hc
      · exact hc2 c hc
      · have hcd : c = NodeRef.var di := by simpa using hc
        exact ⟨di, hcd, hdi⟩
  · intro p hp
    rcases hpar with he | he
    · rw [he] at hp
      exact hp2 p hp
    · rw [he] at hp
      rcases List.mem_append.mp hp with hp | hp
      · exact hp2 p hp
      · have hps : p = NodeRef.var si := by simpa using hp
        exact ⟨si, hps, hsi⟩

theorem lm_foldVarEdges_refsOk (srcs : List Nat) (d : DFG) (di : Nat)
    (fn : Option Function)
    (hsrcs : ∀ si ∈ srcs, si < d.variables_blocks.length)
    (hdi : di < d.variables_blocks.length) (h : RefsOk d) :
    RefsOk (srcs.foldl (fun d2 si => d2.addVariableEdge si di fn) d)
    ∧ (srcs.foldl (fun d2 si => d2.addVariableEdge si di fn) d).variables_blocks.length
      = d.variables_blocks.length := by
  induction srcs generalizing d with
  | nil => exact ⟨h, rfl⟩
  | cons si rest ih =>
    rw [List.foldl_cons]
    have hsi : si < d.variables_blocks.length :=
      hsrcs si (List.mem_cons_self si rest)
    have hlen := lm_addVariableEdge_len d si di fn
    have hr := lm_addVariableEdge_refsOk d si di fn hsi hdi h
    have hsrcs' : ∀ s2 ∈ rest, s2 < (d.addVariableEdge si di fn).variables_blocks.length := by
      intro s2 hs2
      rw [hlen]
      exact hsrcs s2 (List.mem_cons_of_mem si hs2)
    have ihr := ih (d.addVariableEdge si di fn) hsrcs' (hlen ▸ hdi) hr
    exact ⟨ihr.1, ihr.2.trans hlen⟩

/-- The constant-block invariants survive one push. -/
theorem lm_pushConstant_inv (d : DFG) (x : Scalar) (v : Variable) (di : Nat) :
    (constIdsOk d → constIdsOk (d.pushConstant x v di))
    ∧ (constsZero d → constsZero (d.pushConstant x v di)) := by
  constructor
  · intro h
    unfold constIdsOk at h ⊢
    show ((d.constants_blocks ++ [_]).map _) = List.range (d.constants_blocks ++ [_]).length
    rw [List.map_append, h, List.length_append]
    simp [List.range_succ]
  · intro h c hc
    rcases List.mem_append.mp hc with hc | hc
    · exact h c hc
    · have hce := List.mem_singleton.mp hc
      rw [hce]

/-- The ok-case of the constants loop preserves the constant invariants. -/
theorem lm_foldConsts_inv (ps : List Operand) (d : DFG) (v : Variable) (di : Nat)
    (d' : DFG)
    (h : ps.foldlM (fun d2 p => d2.addConstantEdge v di p) d = Except.ok d') :
    (constIdsOk d → constIdsOk d') ∧ (constsZero d → constsZero d') := by
  induction ps generalizing d with
  | nil =>
    have h' : (Except.ok d : Except String DFG) = Except.ok d' := h
    have := Except.ok.inj h'
    subst this
    exact ⟨id, id⟩
  | cons p ps ih =>
    rw [List.foldlM_cons] at h
    cases hpv : p.value with
    | multi vs =>
      cases vs with
      | nil =>
        rw [show d.addConstantEdge v di p = Except.error "IndexError" by
          simp [DFG.addConstantEdge, hpv]] at h
        exact Except.noConfusion h
      | cons x xs =>
        rw [show d.addConstantEdge v di p = Except.ok (d.pushConstant x v di) by
          simp [DFG.addConstantEdge, hpv]] at h
        have h' : ps.foldlM (fun d2 q => d2.addConstantEdge v di q)
            (d.pushConstant x v di) = Except.ok d' := h
        have hp := lm_pushConstant_inv d x v di
        have ihr := ih (d.pushConstant x v di) h'
        exact ⟨fun hi => ihr.1 (hp.1 hi), fun hz => ihr.2 (hp.2 hz)⟩
    | single x =>
      rw [show d.addConstantEdge v di p = Except.ok (d.pushConstant x v di) by
        simp [DFG.addConstantEdge, hpv]] at h
      have h' : ps.foldlM (fun d2 q => d2.addConstantEdge v di q)
          (d.pushConstant x v di) = Except.ok d' := h
      have hp := lm_pushConstant_inv d x v di
      have ihr := ih (d.pushConstant x v di) h'
      exact ⟨fun hi => ihr.1 (hp.1 hi), fun hz => ihr.2 (hp.2 hz)⟩

theorem lm_foldVarEdges_len (srcs : List Nat) (d : DFG) (di : Nat)
    (fn : Option Function) :
    (srcs.foldl (fun d2 si => d2.addVariableEdge si di fn) d).variables_blocks.length
      = d.variables_blocks.length := by
  induction srcs generalizing d with
  | nil => rfl
  | cons si rest ih =>
    rw [List.foldl_cons]
    exact (ih (d.addVariableEdge si di fn)).trans (lm_addVariableEdge_len d si di fn)

/-- A successful `_create_edges` iteration preserves all three structural
invariants and the number of variable blocks. -/
theorem lm_createEdgesStep_inv (d : DFG) (v : Variable) (d' : DFG)
    (h : DFG.createEdgesStep d v = Except.ok d') :
    (RefsOk d → RefsOk d')
    ∧ (constIdsOk d → constIdsOk d')
    ∧ (constsZero d → constsZero d')
    ∧ d'.variables_blocks.length = d.variables_blocks.length := by
  cases hval : v.value with
  | none =>
    have h' : (Except.ok d : Except String DFG) = Except.ok d' := by
      rw [← h]; simp [DFG.createEdgesStep, hval]
    have := Except.ok.inj h'
    subst this
    exact ⟨id, id, id, rfl⟩
  | some vv =>
    cases vv with
    | call f cn =>
      have h' : (Except.ok d : Except String DFG) = Except.ok d' := by
        rw [← h]; simp [DFG.createEdgesStep, hval]
      have := Except.ok.inj h'
      subst this
      exact ⟨id, id, id, rfl⟩
    | direct elems =>
      cases hdi : d.destIndex? v with
      | none =>
        rw [DFG.createEdgesStep, hval] at h
        simp only [hdi] at h
        exact Except.noConfusion h
      | some di =>
        rw [lm_createEdgesStep_direct d v elems hval di hdi] at h
        have hdilt := lm_destIndex_lt d v di hdi
        have hsrcs := lm_sourceIndexes_lt d v ((parentsOperands elems).filter
          (fun o => decide (o.type = OperandType.VARIABLE)))
        obtain ⟨hvb, _, _, _⟩ := lm_foldConsts_ok_blocks _ _ _ _ _ h
        have hconsts := lm_foldConsts_inv _ _ _ _ _ h
        have hfoldfields := lm_foldVarEdges
          (d.sourceIndexes v ((parentsOperands elems).filter
            (fun o => decide (o.type = OperandType.VARIABLE)))) d di v.function
        refine ⟨?_, ?_, ?_, ?_⟩
        · intro hr
          have hfold := lm_foldVarEdges_refsOk _ d di v.function hsrcs hdilt hr
          intro b hb
          rw [hvb] at hb
          have hres := hfold.1 b hb
          rw [hfold.2] at hres
          rw [hvb, hfold.2]
          exact hres
        · intro hi
          apply hconsts.1
          unfold constIdsOk
          rw [hfoldfields.2.2.1]
          exact hi
        · intro hz
          apply hconsts.2
          intro c hc
          rw [hfoldfields.2.2.1] at hc
          exact hz c hc
        · rw [hvb]
          exact lm_foldVarEdges_len _ d di v.function

theorem lm_edgesFold_inv (l : List Variable) (d : DFG) (d' : DFG)
    (h : l.foldlM DFG.createEdgesStep d = Except.ok d') :
    (RefsOk d → RefsOk d') ∧ (constIdsOk d → constIdsOk d')
    ∧ (constsZero d → constsZero d') := by
  induction l generalizing d with
  | nil =>
    have h' : (Except.ok d : Except String DFG) = Except.ok d' := h
    have := Except.ok.inj h'
    subst this
    exact ⟨id, id, id⟩
  | cons v l ih =>
    rw [List.foldlM_cons] at h
    cases hstep : DFG.createEdgesStep d v with
    | error e =>
      rw [hstep] at h
      exact Except.noConfusion h
    | ok d1 =>
      rw [hstep] at h
      have h' : l.foldlM DFG.createEdgesStep d1 = Except.ok d' := h
      have hs := lm_createEdgesStep_inv d v d1 hstep
      have ihr := ih d1 h'
      exact ⟨fun hr => ihr.1 (hs.1 hr), fun hi => ihr.2.1 (hs.2.1 hi),
        fun hz => ihr.2.2 (hs.2.2.1 hz)⟩

theorem lm_specBlockOf_empty (args : List String) (v : Variable) :
    (specBlockOf args v).children_blocks = []
    ∧ (specBlockOf args v).parents_blocks = [] := by
  cases hf : v.function <;> simp [specBlockOf, hf, dummyBlock]

/-- The structural invariants hold for any successfully built DFG. -/
theorem lm_createDfg_inv (vs : List Variable) (d : DFG)
    (h : createDfg vs = Except.ok d) :
    RefsOk d ∧ constIdsOk d ∧ constsZero d := by
  rw [lm_createDfg_eq] at h
  have hstage : RefsOk (edgesStage vs) ∧ constIdsOk (edgesStage vs)
      ∧ constsZero (edgesStage vs) := by
    refine ⟨?_, ?_, ?_⟩
    · intro b hb
      rw [(lm_edgesStage_fields vs).2.1] at hb
      rcases List.mem_map.mp hb with ⟨v', _, hbe⟩
      obtain ⟨hch, hpar⟩ :=
        lm_specBlockOf_empty ((DFG.init vs).all_functions_arguments) v'
      constructor
      · intro c hc
        rw [← hbe, hch] at hc
        simp at hc
      · intro p hp
        rw [← hbe, hpar] at hp
        simp at hp
    · unfold constIdsOk
      rw [(lm_edgesStage_fields vs).2.2.1]
      rfl
    · intro c hc
      rw [(lm_edgesStage_fields vs).2.2.1] at hc
      simp at hc
  have hfold := lm_edgesFold_inv vs (edgesStage vs) d h
  exact ⟨hfold.1 hstage.1, hfold.2.1 hstage.2.1, hfold.2.2 hstage.2.2⟩

theorem lm_refsOk_varChildren {d : DFG} (h : RefsOk d) : VarChildren d := by
  intro b hb c hc
  rcases (h b hb).1 c hc with ⟨j, hcj, _⟩
  rw [hcj]
  rfl

theorem lm_refsOk_closed {d : DFG} (h : RefsOk d) : ClosedDFG d := by
  intro b hb c hc
  rcases (h b hb).1 c hc with ⟨j, hcj, hj⟩
  rw [hcj]
  exact hj

/-- Every block the traversal ever visits is a variable block. -/
theorem lm_taintRun_varRefs (n : Nat) (s : TaintState)
    (hv : VarChildren s.dfg)
    (hq : ∀ r ∈ s.queue, r.isVar = true)
    (ht : ∀ r ∈ s.tainted, r.isVar = true) :
    ∀ r ∈ (taintRun n s).tainted, r.isVar = true := by
  induction n generalizing s with
  | zero => exact ht
  | succ n ih =>
    by_cases hqe : s.queue = []
    · rw [lm_taintRun_fix _ _ hqe]
      exact ht
    · rw [lm_taintRun_succ n s hqe]
      obtain ⟨b, rest, hbr⟩ : ∃ b rest, s.queue = b :: rest := by
        cases hcase : s.queue with
        | nil => exact absurd hcase hqe
        | cons b rest => exact ⟨b, rest, rfl⟩
      have hstepeq := lm_taintStep_cons s b rest hbr
      apply ih (taintStep s)
      · exact lm_varChildren_structure (lm_taintStep_structure s) hv
      · rw [hstepeq]
        intro r hr
        rcases List.mem_append.mp hr with hr | hr
        · exact hq r (hbr ▸ List.mem_cons_of_mem b hr)
        · have hrc := (List.mem_filter.mp hr).1
          have hrc' : r ∈ childrenOf s.dfg b := by
            rw [← lm_childrenOf_structure (lm_taintChildrenBlocks_structure s.dfg b) b]
            exact hrc
          exact lm_childrenOf_isVar hv b r hrc'
      · rw [hstepeq]
        intro r hr
        rcases List.mem_append.mp hr with hr | hr
        · exact ht r hr
        · have : r = b := by simpa using hr
          rw [this]
          exact hq b (hbr ▸ List.mem_cons_self b rest)

instance instDecEqExcept {ε α : Type} [DecidableEq ε] [DecidableEq α] :
    DecidableEq (Except ε α) := fun x y =>
  match x, y with
  | Except.ok a, Except.ok b =>
    if h : a = b then isTrue (h ▸ rfl) else isFalse (fun hc => h (Except.ok.inj hc))
  | Except.error e, Except.error f =>
    if h : e = f then isTrue (h ▸ rfl) else isFalse (fun hc => h (Except.error.inj hc))
  | Except.ok _, Except.error _ => isFalse (fun hc => Except.noConfusion hc)
  | Except.error _, Except.ok _ => isFalse (fun hc => Except.noConfusion hc)

/-! ### Concrete programs used by the claims -/

/-- A non-import function with one argument named "a". -/
def f1 : Function := ⟨1, "f1", false, ["a"], [], []⟩

/-- A variable-typed operand with a multi-source list payload. -/
def varOpMulti (names : List String) : ValueElement :=
  ValueElement.op ⟨OperandType.VARIABLE, OpPayload.multi (names.map Scalar.str)⟩

/-- The chain A -> B -> C with A a function argument. -/
def chainVars : List Variable :=
  [ ⟨"a", some f1, true, false, none⟩,
    ⟨"b", some f1, false, false, some (VariableValue.direct [varOpMulti ["a"]])⟩,
    ⟨"c", some f1, false, false, some (VariableValue.direct [varOpMulti ["b"]])⟩ ]

/-- The diamond A -> B, A -> C, B -> D, C -> D with A a function argument. -/
def diamondVars : List Variable :=
  [ ⟨"a", some f1, true, false, none⟩,
    ⟨"b", some f1, false, false, some (VariableValue.direct [varOpMulti ["a"]])⟩,
    ⟨"c", some f1, false, false, some (VariableValue.direct [varOpMulti ["a"]])⟩,
    ⟨"d", some f1, false, false, some (VariableValue.direct [varOpMulti ["b", "c"]])⟩ ]

/-- Extract a successfully built DFG (the error case never occurs where this
is used). -/
def extractOk (x : Except String DFG) : DFG :=
  match x with
  | Except.ok d => d
  | Except.error _ => DFG.init []

/-- The built chain DFG. -/
def chainDfg : DFG := extractOk (createDfg chainVars)

/-- A program with two references to the literal 5. -/
def vars10 : List Variable :=
  [ ⟨"a", some f1, true, false, none⟩,
    ⟨"b", some f1, false, false, some (VariableValue.direct
        [ ValueElement.op ⟨OperandType.INTEGER, OpPayload.single (Scalar.int 5)⟩,
          ValueElement.op ⟨OperandType.INTEGER, OpPayload.single (Scalar.int 5)⟩ ])⟩ ]

/-- The built DFG of `vars10`. -/
def dfg10 : DFG := extractOk (createDfg vars10)

/-! ### Claim C2 -/

/-- C2, counterexample: on the diamond graph the traversal terminates (the
queue empties) but the convergence block (index 3) is appended to the
visited `tainted_blocks` list twice, not exactly once: the membership check
happens only before processing, not before enqueueing. -/
theorem claim_C2_counterexample :
    (createDfg diamondVars).map (fun d =>
      ((taintVariable 10 d 0).queue,
       ((taintVariable 10 d 0).tainted.filter
          (fun r => decide (r = NodeRef.var 3))).length))
      = Except.ok ([], 2) := by decide

/-- C2, amended: for every DFG whose children lists reference only existing
blocks, the traversal of `_taint_variable` terminates (some iteration budget
empties the queue), and every block reachable from the source along the
`children_blocks` relation is visited (appended to `tainted_blocks`) at
least once — but, per the counterexample, possibly more than once on
convergent paths. -/
theorem claim_C2_theorem (d : DFG) (src : Nat)
    (hsrc : src < d.variables_blocks.length) (hcl : ClosedDFG d) :
    ∃ n, (taintVariable n d src).queue = [] ∧
      ∀ x, Relation.ReflTransGen (childStep d) (NodeRef.var src) x →
        x ∈ (taintVariable n d src).tainted :=
  lm_taintVariable_terminates d src hsrc hcl

theorem claim_C2_witness :
    0 < chainDfg.variables_blocks.length ∧ ClosedDFG chainDfg ∧
    ∃ n, (taintVariable n chainDfg 0).queue = [] ∧
      ∀ x, Relation.ReflTransGen (childStep chainDfg) (NodeRef.var 0) x →
        x ∈ (taintVariable n chainDfg 0).tainted :=
  ⟨by decide, by decide, claim_C2_theorem chainDfg 0 (by decide) (by decide)⟩

/-! ### Claim C5 -/

/-- C5: `_create_blocks` builds, in input order, exactly one block per
variable whose function is non-null and not an import (none otherwise), and
the block count equals the number of such variables. -/
theorem claim_C5_theorem (vs : List Variable) :
    ((DFG.init vs).createBlocks).variables_blocks
      = (vs.filter keepsVariable).map
          (specBlockOf ((DFG.init vs).all_functions_arguments))
    ∧ ((DFG.init vs).createBlocks).variables_blocks.length
      = vs.countP keepsVariable := by
  have h := lm_createBlocks_result vs
  refine ⟨h, ?_⟩
  rw [h, List.length_map, ← List.countP_eq_length_filter]

/-! ### Claim C9 -/

/-- C9: the four taint operations change only variable-block tainting
coefficients: the variables list, the argument-name list, the constant and
call block lists, the edge list, and every block's name, function, flags,
display name, parents and children are all unchanged. -/
theorem claim_C9_theorem (d : DFG) (r : NodeRef) (fuel src : Nat)
    (hv : VarChildren d) :
    TaintFrame d (d.taintChildrenBlocks r)
    ∧ TaintFrame d (taintVariable fuel d src).dfg
    ∧ TaintFrame d (d.taintFunctionsArguments fuel)
    ∧ TaintFrame d d.cleanTainting :=
  ⟨lm_taintChildrenBlocks_frame hv r, lm_taintVariable_frame fuel d src hv,
   lm_taintFunctionsArguments_frame fuel d hv, lm_cleanTainting_frame d⟩

theorem claim_C9_witness :
    VarChildren chainDfg ∧
    (TaintFrame chainDfg (chainDfg.taintChildrenBlocks (NodeRef.var 0))
    ∧ TaintFrame chainDfg (taintVariable 10 chainDfg 0).dfg
    ∧ TaintFrame chainDfg (chainDfg.taintFunctionsArguments 10)
    ∧ TaintFrame chainDfg chainDfg.cleanTainting) :=
  ⟨by decide, claim_C9_theorem chainDfg (NodeRef.var 0) 10 0 (by decide)⟩

/-! ### Claim C8 -/

/-- Two DFG states that agree on everything except variable-block tainting
coefficients. -/
def SameShape (d1 d2 : DFG) : Prop :=
  d1.«variables» = d2.«variables»
  ∧ d1.all_functions_arguments = d2.all_functions_arguments
  ∧ d1.variables_blocks.map eraseCoeff = d2.variables_blocks.map eraseCoeff
  ∧ d1.constants_blocks = d2.constants_blocks
  ∧ d1.functions_calls_blocks = d2.functions_calls_blocks
  ∧ d1.edges = d2.edges

instance (d1 d2 : DFG) : Decidable (SameShape d1 d2) :=
  inferInstanceAs (Decidable (_ ∧ _ ∧ _ ∧ _ ∧ _ ∧ _))

theorem lm_clean_eq_of_sameShape {d1 d2 : DFG} (h : SameShape d1 d2) :
    d1.cleanTainting = d2.cleanTainting := by
  obtain ⟨h1, h2, h3, h4, h5, h6⟩ := h
  have h3' : d1.variables_blocks.map
      (fun b => { b with tainting_coefficient := Coeff.zero })
      = d2.variables_blocks.map
      (fun b => { b with tainting_coefficient := Coeff.zero }) := h3
  unfold DFG.cleanTainting
  rw [h1, h2, h3', h4, h5, h6]

/-- C8: `_clean_tainting` zeroes every variable block's coefficient; it is
idempotent; and after cleaning, the result of `_taint_functions_arguments`
depends only on the graph shape, not on any previously assigned
coefficients. -/
theorem claim_C8_theorem :
    (∀ d : DFG, ∀ b ∈ d.cleanTainting.variables_blocks,
      b.tainting_coefficient = Coeff.zero)
    ∧ (∀ d : DFG, d.cleanTainting.cleanTainting = d.cleanTainting)
    ∧ (∀ (d1 d2 : DFG) (fuel : Nat), SameShape d1 d2 →
        (d1.cleanTainting).taintFunctionsArguments fuel
          = (d2.cleanTainting).taintFunctionsArguments fuel) := by
  refine ⟨?_, ?_, ?_⟩
  · intro d b hb
    rcases List.mem_map.mp hb with ⟨b0, _, hbe⟩
    rw [← hbe]
  · intro d
    unfold DFG.cleanTainting
    have hmm : (d.variables_blocks.map
          (fun b => { b with tainting_coefficient := Coeff.zero })).map
          (fun b => { b with tainting_coefficient := Coeff.zero })
        = d.variables_blocks.map
          (fun b => { b with tainting_coefficient := Coeff.zero }) := by
      rw [List.map_map]
      rfl
    simp only
    rw [hmm]
  · intro d1 d2 fuel h
    rw [lm_clean_eq_of_sameShape h]

theorem claim_C8_witness :
    SameShape chainDfg (chainDfg.taintFunctionsArguments 10)
    ∧ (chainDfg.cleanTainting).taintFunctionsArguments 5
        = ((chainDfg.taintFunctionsArguments 10).cleanTainting).taintFunctionsArguments 5 :=
  ⟨by decide, claim_C8_theorem.2.2 chainDfg (chainDfg.taintFunctionsArguments 10) 5 (by decide)⟩

/-! ### Claim C7 -/

/-- An import function owning a variable with a direct value. -/
def importFn : Function := ⟨3, "imp", true, [], [], []⟩

/-- A variable list whose blocks are built by `_create_blocks` from the same
list, yet `_create_edges` fails: the variable belongs to an import function,
so no block matches it. -/
def vars7 : List Variable :=
  [⟨"x", some importFn, false, false, some (VariableValue.direct [])⟩]

/-- A variable list where every variable has a matching block, yet
`_create_edges` still fails: an integer operand carries an empty list
payload. -/
def vars7b : List Variable :=
  [⟨"x", some f1, false, false, some (VariableValue.direct
      [ValueElement.op ⟨OperandType.INTEGER, OpPayload.multi []⟩])⟩]

/-- C7, counterexample: (i) on `vars7` the blocks are built from the very
same variable list and `_create_edges` still raises, refuting "this failure
does not occur"; (ii) on `vars7b` every variable with a non-null non-call
value has a matching `(function, name)` block and `_create_edges` raises
anyway, refuting the "only if" direction of the stated equivalence. -/
theorem claim_C7_counterexample :
    createDfg vars7 = Except.error "IndexError"
    ∧ createDfg vars7b = Except.error "IndexError"
    ∧ (∀ v ∈ (edgesStage vars7b).«variables»,
        hasMatchingBlockB (edgesStage vars7b) v = true) := by decide

/-- C7, amended: `_create_edges` fails with a `LookupError`-class condition
iff some variable with a non-null, non-call value either has no variable
block matching its `(function, name)` pair or carries an integer operand
with an empty list payload; and when blocks are built from the same list the
failure is absent provided every direct-valued variable has a non-null,
non-import function and no empty integer list payload. -/
theorem claim_C7_theorem :
    (∀ d : DFG, (∃ e, d.createEdges = Except.error e)
        ↔ ∃ v ∈ d.«variables», stepFailsB d v = true)
    ∧ (∀ vs : List Variable, (∀ v ∈ vs, goodVarB v = true) →
        ∃ d, createDfg vs = Except.ok d) := by
  constructor
  · intro d
    exact lm_edgesFold_error d.«variables» d
  · exact lm_createDfg_ok

theorem claim_C7_witness :
    (∀ v ∈ chainVars, goodVarB v = true)
    ∧ ∃ d, createDfg chainVars = Except.ok d :=
  ⟨by decide, claim_C7_theorem.2 chainVars (by decide)⟩

/-! ### Claim C10 -/

/-- C10: after `_create_dfg`, every reference in every block's
`parents_blocks`/`children_blocks` is a variable-block reference (constant
blocks are never registered in the relational lists, although their edges
are in `edges`); consequently taint propagation never leaves
`constants_blocks` — the whole list, coefficients included, is untouched and
stays at coefficient 0 — and every block the traversal visits is a variable
block. -/
theorem claim_C10_theorem (vs : List Variable) (d : DFG)
    (h : createDfg vs = Except.ok d) :
    RefsOk d
    ∧ (∀ fuel, (d.taintFunctionsArguments fuel).constants_blocks = d.constants_blocks)
    ∧ (∀ c ∈ d.constants_blocks, c.tainting_coefficient = Coeff.zero)
    ∧ (∀ fuel src, ∀ r ∈ (taintVariable fuel d src).tainted, r.isVar = true) := by
  obtain ⟨hrefs, _, hzero⟩ := lm_createDfg_inv vs d h
  have hv : VarChildren d := lm_refsOk_varChildren hrefs
  refine ⟨hrefs, ?_, hzero, ?_⟩
  · intro fuel
    exact (lm_taintFunctionsArguments_frame fuel d hv).2.2.1
  · intro fuel src r hr
    have hv0 : VarChildren (taintInit d src).dfg :=
      lm_varChildren_structure (lm_setCoeff_structure d (NodeRef.var src) Coeff.one) hv
    refine lm_taintRun_varRefs fuel (taintInit d src) hv0 ?_ ?_ r hr
    · intro r2 hr2
      have : r2 = NodeRef.var src := by simpa [taintInit] using hr2
      rw [this]
      rfl
    · intro r2 hr2
      simp [taintInit] at hr2

theorem claim_C10_witness :
    createDfg vars10 = Except.ok dfg10
    ∧ (RefsOk dfg10
      ∧ (∀ fuel, (dfg10.taintFunctionsArguments fuel).constants_blocks
          = dfg10.constants_blocks)
      ∧ (∀ c ∈ dfg10.constants_blocks, c.tainting_coefficient = Coeff.zero)
      ∧ (∀ fuel src, ∀ r ∈ (taintVariable fuel dfg10 src).tainted,
          r.isVar = true)) :=
  ⟨by decide, claim_C10_theorem vars10 dfg10 (by decide)⟩

/-! ### Claim C1 -/

/-- C1: `_taint_variable` sets the source coefficient to 1 before the
traversal; each loop iteration sets every child of the processed block to
0.7 times the processed block's coefficient; and on the concrete chain
A -> B -> C with A a function argument, `_taint_functions_arguments` leaves
the coefficients 1, 0.7 and 0.49. -/
theorem claim_C1_theorem (d : DFG) (src : Nat) (s : TaintState) (b : NodeRef)
    (rest : List NodeRef)
    (hsrc : src < d.variables_blocks.length)
    (hq : s.queue = b :: rest)
    (hb : b ∉ childrenOf s.dfg b)
    (hv : ∀ c ∈ childrenOf s.dfg b, validRef s.dfg c) :
    coeffOf (taintInit d src).dfg (NodeRef.var src) = Coeff.one
    ∧ (∀ c ∈ childrenOf s.dfg b,
        coeffOf (taintStep s).dfg c = Coeff.propagate (coeffOf s.dfg b))
    ∧ ((createDfg chainVars).map (fun d2 =>
        (d2.taintFunctionsArguments 10).variables_blocks.map
          (fun blk => Coeff.toRat blk.tainting_coefficient))
      = Except.ok [1, 7/10, 49/100]) := by
  refine ⟨?_, ?_, ?_⟩
  · exact lm_coeffOf_setCoeff_self d (NodeRef.var src) Coeff.one hsrc
  · intro c hc
    rw [lm_taintStep_cons s b rest hq]
    simp only
    rw [lm_taintChildrenBlocks_eq]
    exact (lm_taintFoldFn_coeff b (childrenOf s.dfg b) s.dfg hb hv).2 c hc
  · have hstruct : (createDfg chainVars).map (fun d2 =>
        (d2.taintFunctionsArguments 10).variables_blocks.map
          (fun blk => blk.tainting_coefficient))
        = Except.ok [⟨1, 1⟩, ⟨7, 10⟩, ⟨49, 100⟩] := by decide
    cases hcd : createDfg chainVars with
    | error e =>
      rw [hcd] at hstruct
      exact Except.noConfusion hstruct
    | ok d2 =>
      rw [hcd] at hstruct
      have h2 : (d2.taintFunctionsArguments 10).variables_blocks.map
          (fun blk => blk.tainting_coefficient)
          = [⟨1, 1⟩, ⟨7, 10⟩, ⟨49, 100⟩] := Except.ok.inj hstruct
      show Except.ok ((d2.taintFunctionsArguments 10).variables_blocks.map
          (fun blk => Coeff.toRat blk.tainting_coefficient))
        = Except.ok [1, 7/10, 49/100]
      congr 1
      have hmm : (d2.taintFunctionsArguments 10).variables_blocks.map
          (fun blk => Coeff.toRat blk.tainting_coefficient)
          = ((d2.taintFunctionsArguments 10).variables_blocks.map
              (fun blk => blk.tainting_coefficient)).map Coeff.toRat := by
        rw [List.map_map]
        rfl
      rw [hmm, h2]
      simp [Coeff.toRat]

theorem claim_C1_witness :
    0 < chainDfg.variables_blocks.length
    ∧ (taintInit chainDfg 0).queue = NodeRef.var 0 :: []
    ∧ NodeRef.var 0 ∉ childrenOf (taintInit chainDfg 0).dfg (NodeRef.var 0)
    ∧ (∀ c ∈ childrenOf (taintInit chainDfg 0).dfg (NodeRef.var 0),
        validRef (taintInit chainDfg 0).dfg c)
    ∧ (coeffOf (taintInit chainDfg 0).dfg (NodeRef.var 0) = Coeff.one
      ∧ (∀ c ∈ childrenOf (taintInit chainDfg 0).dfg (NodeRef.var 0),
          coeffOf (taintStep (taintInit chainDfg 0)).dfg c
            = Coeff.propagate (coeffOf (taintInit chainDfg 0).dfg (NodeRef.var 0)))
      ∧ ((createDfg chainVars).map (fun d2 =>
          (d2.taintFunctionsArguments 10).variables_blocks.map
            (fun blk => Coeff.toRat blk.tainting_coefficient))
        = Except.ok [1, 7/10, 49/100])) :=
  ⟨by decide, by decide, by decide, by decide,
   claim_C1_theorem chainDfg 0 (taintInit chainDfg 0) (NodeRef.var 0) []
     (by decide) (by decide) (by decide) (by decide)⟩

/-! ### Claim C3 -/

/-- Modelled from the spec: the set of argument names taken across every
non-import function, as the claim words it (the comparison set; the code
actually uses `all_functions_arguments`, which includes import functions). -/
def specNonImportArguments (vs : List Variable) : List String :=
  (((vs.filterMap (fun v => v.function)).filter (fun f => !f.is_import)).map
    (fun f => Function.argumentsListDefault f)).flatten

/-- A non-import function with no arguments. -/
def fC3 : Function := ⟨1, "f2", false, [], [], []⟩

/-- An import function with argument name "x". -/
def gImp : Function := ⟨7, "g", true, ["x"], [], []⟩

/-- Variables: "x" owned by the non-import `fC3`, plus a variable owned by
the import function `gImp` whose argument list contains "x". -/
def c3Vars : List Variable :=
  [⟨"x", some fC3, false, false, none⟩, ⟨"y", some gImp, false, false, none⟩]

/-- C3, counterexample: "x" is an argument name of no non-import function,
so the claim requires the bare display name "x"; but the code collects
argument names from all functions, imports included (dfg.py lines 59-60),
and displays "f1_x". -/
theorem claim_C3_counterexample :
    (((DFG.init c3Vars).createBlocks).variables_blocks.map
        (fun b => b.graph_representation_name) = ["f1_x"])
    ∧ "x" ∉ specNonImportArguments c3Vars := by decide

/-- C3, amended: a created block's display name is the prefixed identifier
`f<id>_<name>` iff its bare name occurs in `all_functions_arguments`, the
concatenated `arguments_list()` of the functions of all input variables
(import functions included); otherwise it is the bare name. -/
theorem claim_C3_theorem (vs : List Variable) (b : DFGVariableBlock)
    (hb : b ∈ ((DFG.init vs).createBlocks).variables_blocks) :
    b.graph_representation_name =
      if b.name ∈ (DFG.init vs).all_functions_arguments
      then "f" ++ toString b.function.id ++ "_" ++ b.name
      else b.name := by
  rw [lm_createBlocks_result vs] at hb
  rcases List.mem_map.mp hb with ⟨v, hvf, hbe⟩
  have hkeep : keepsVariable v = true := (List.mem_filter.mp hvf).2
  cases hf : v.function with
  | none =>
    unfold keepsVariable at hkeep
    rw [hf] at hkeep
    simp at hkeep
  | some f =>
    rw [← hbe]
    simp [specBlockOf, hf]

/-- The first block built from the chain program. -/
def c3wBlock : DFGVariableBlock :=
  ((DFG.init chainVars).createBlocks).variables_blocks.headD dummyBlock

theorem claim_C3_witness :
    c3wBlock ∈ ((DFG.init chainVars).createBlocks).variables_blocks
    ∧ c3wBlock.graph_representation_name =
      if c3wBlock.name ∈ (DFG.init chainVars).all_functions_arguments
      then "f" ++ toString c3wBlock.function.id ++ "_" ++ c3wBlock.name
      else c3wBlock.name :=
  ⟨by decide, claim_C3_theorem chainVars c3wBlock (by decide)⟩

/-! ### Claim C4 -/

/-- C4: for a variable with a non-null, non-call value whose destination
resolves at index `di`, the sources collected by the code coincide with the
declarative description (a multi-source list payload selects every
same-function block whose name occurs in the list; a scalar payload selects
the same-function blocks matching the destination variable's own name), and
the per-source loop appends the destination to each source's children, each
source to the destination's parents, and emits one edge per source, before
the integer operands are processed. -/
theorem claim_C4_theorem (d : DFG) (v : Variable) (elems : List ValueElement)
    (di : Nat)
    (hval : v.value = some (VariableValue.direct elems))
    (hdi : d.destIndex? v = some di) :
    d.sourceIndexes v ((parentsOperands elems).filter
        (fun o => decide (o.type = OperandType.VARIABLE)))
      = specSourceIndexes d v ((parentsOperands elems).filter
        (fun o => decide (o.type = OperandType.VARIABLE)))
    ∧ DFG.createEdgesStep d v
      = ((parentsOperands elems).filter
          (fun o => decide (o.type = OperandType.INTEGER))).foldlM
          (fun d2 p => d2.addConstantEdge v di p)
          ((d.sourceIndexes v ((parentsOperands elems).filter
              (fun o => decide (o.type = OperandType.VARIABLE)))).foldl
            (fun d2 si => d2.addVariableEdge si di v.function) d)
    ∧ ((d.sourceIndexes v ((parentsOperands elems).filter
          (fun o => decide (o.type = OperandType.VARIABLE)))).foldl
          (fun d2 si => d2.addVariableEdge si di v.function) d).edges
      = d.edges ++ (d.sourceIndexes v ((parentsOperands elems).filter
          (fun o => decide (o.type = OperandType.VARIABLE)))).map (fun si =>
            { source := NodeRef.var si, destination := NodeRef.var di,
              function := v.function })
    ∧ ∀ j b2, d.variables_blocks.get? j = some b2 →
        ((d.sourceIndexes v ((parentsOperands elems).filter
            (fun o => decide (o.type = OperandType.VARIABLE)))).foldl
            (fun d2 si => d2.addVariableEdge si di v.function) d).variables_blocks.get? j
          = some { b2 with
              children_blocks := b2.children_blocks ++ List.replicate
                ((d.sourceIndexes v ((parentsOperands elems).filter
                  (fun o => decide (o.type = OperandType.VARIABLE)))).count j)
                (NodeRef.var di)
              parents_blocks := b2.parents_blocks ++
                (if j = di then (d.sourceIndexes v ((parentsOperands elems).filter
                  (fun o => decide (o.type = OperandType.VARIABLE)))).map NodeRef.var
                 else []) } :=
  ⟨lm_sourceIndexes_spec d v _,
   lm_createEdgesStep_direct d v elems hval di hdi,
   (lm_foldVarEdges _ d di v.function).2.2.2.2.1,
   (lm_foldVarEdges _ d di v.function).2.2.2.2.2⟩

/-- The chain variable "b", defined from the multi-source list ["a"]. -/
def varB : Variable :=
  ⟨"b", some f1, false, false, some (VariableValue.direct [varOpMulti ["a"]])⟩

theorem claim_C4_witness :
    varB.value = some (VariableValue.direct [varOpMulti ["a"]])
    ∧ (edgesStage chainVars).destIndex? varB = some 1
    ∧ ((edgesStage chainVars).sourceIndexes varB (([varOpMulti ["a"]].filterMap
        (fun e => match e with
          | ValueElement.op o => some o
          | ValueElement.other => none)).filter
          (fun o => decide (o.type = OperandType.VARIABLE)))
      = specSourceIndexes (edgesStage chainVars) varB
          (((parentsOperands [varOpMulti ["a"]])).filter
            (fun o => decide (o.type = OperandType.VARIABLE)))) :=
  ⟨by decide, by decide,
   (claim_C4_theorem (edgesStage chainVars) varB [varOpMulti ["a"]] 1
     (by decide) (by decide)).1⟩

/-! ### Claim C6 -/

/-- C6: each integer-typed operand allocates a fresh constant block whose
sequential id is the number of constant blocks created so far, scoped to the
destination variable's function, with an `Edge(constant, destination,
function)`; a list payload contributes its first element; and in any built
DFG the constant ids are exactly `0, 1, ...` with no duplicates (two
references to the same literal give two blocks with distinct ids). -/
theorem claim_C6_theorem :
    (∀ (d : DFG) (v : Variable) (elems : List ValueElement) (di : Nat),
      v.value = some (VariableValue.direct elems) →
      d.destIndex? v = some di →
      (∀ p ∈ (parentsOperands elems).filter
          (fun o => decide (o.type = OperandType.INTEGER)),
          p.value ≠ OpPayload.multi []) →
      DFG.createEdgesStep d v = Except.ok
        { ((d.sourceIndexes v ((parentsOperands elems).filter
              (fun o => decide (o.type = OperandType.VARIABLE)))).foldl
            (fun d2 si => d2.addVariableEdge si di v.function) d) with
          constants_blocks := d.constants_blocks ++
            specNewConstants v d.constants_blocks.length
              ((parentsOperands elems).filter
                (fun o => decide (o.type = OperandType.INTEGER)))
          edges := ((d.sourceIndexes v ((parentsOperands elems).filter
              (fun o => decide (o.type = OperandType.VARIABLE)))).foldl
            (fun d2 si => d2.addVariableEdge si di v.function) d).edges ++
            specConstEdges v di d.constants_blocks.length
              ((parentsOperands elems).filter
                (fun o => decide (o.type = OperandType.INTEGER))) })
    ∧ (∀ (vs : List Variable) (d : DFG), createDfg vs = Except.ok d →
        d.constants_blocks.map (fun c => c.id)
          = List.range d.constants_blocks.length
        ∧ (d.constants_blocks.map (fun c => c.id)).Nodup) := by
  constructor
  · intro d v elems di hval hdi hne
    rw [lm_createEdgesStep_direct d v elems hval di hdi]
    rw [lm_foldConsts _ _ _ _ hne]
    rw [(lm_foldVarEdges (d.sourceIndexes v ((parentsOperands elems).filter
        (fun o => decide (o.type = OperandType.VARIABLE)))) d di v.function).2.2.1]
  · intro vs d h
    have hids := (lm_createDfg_inv vs d h).2.1
    refine ⟨hids, ?_⟩
    rw [hids]
    exact List.nodup_range _

/-- The integer operands of the `vars10` assignment. -/
def elemsI : List ValueElement :=
  [ ValueElement.op ⟨OperandType.INTEGER, OpPayload.single (Scalar.int 5)⟩,
    ValueElement.op ⟨OperandType.INTEGER, OpPayload.single (Scalar.int 5)⟩ ]

/-- The variable of `vars10` assigned from two occurrences of the
literal 5. -/
def varI : Variable := ⟨"b", some f1, false, false, some (VariableValue.direct elemsI)⟩

theorem claim_C6_witness :
    varI.value = some (VariableValue.direct elemsI)
    ∧ (edgesStage vars10).destIndex? varI = some 1
    ∧ (∀ p ∈ (parentsOperands elemsI).filter
          (fun o => decide (o.type = OperandType.INTEGER)),
        p.value ≠ OpPayload.multi [])
    ∧ createDfg vars10 = Except.ok dfg10
    ∧ (DFG.createEdgesStep (edgesStage vars10) varI = Except.ok
        { (((edgesStage vars10).sourceIndexes varI ((parentsOperands elemsI).filter
              (fun o => decide (o.type = OperandType.VARIABLE)))).foldl
            (fun d2 si => d2.addVariableEdge si 1 varI.function) (edgesStage vars10)) with
          constants_blocks := (edgesStage vars10).constants_blocks ++
            specNewConstants varI (edgesStage vars10).constants_blocks.length
              ((parentsOperands elemsI).filter
                (fun o => decide (o.type = OperandType.INTEGER)))
          edges := (((edgesStage vars10).sourceIndexes varI ((parentsOperands elemsI).filter
              (fun o => decide (o.type = OperandType.VARIABLE)))).foldl
            (fun d2 si => d2.addVariableEdge si 1 varI.function) (edgesStage vars10)).edges ++
            specConstEdges varI 1 (edgesStage vars10).constants_blocks.length
              ((parentsOperands elemsI).filter
                (fun o => decide (o.type = OperandType.INTEGER))) })
    ∧ (dfg10.constants_blocks.map (fun c => c.id)
        = List.range dfg10.constants_blocks.length
      ∧ (dfg10.constants_blocks.map (fun c => c.id)).Nodup) :=
  ⟨by decide, by decide, by decide, by decide,
   claim_C6_theorem.1 (edgesStage vars10) varI elemsI 1 (by decide) (by decide)
     (by decide),
   claim_C6_theorem.2 vars10 dfg10 (by decide)⟩
